import Mathlib

/-!
# ts_hashmap: a fixed-capacity chained hash map

A shallow embedding of `src/ts_hashmap.c`.  The map is a table of bucket
chains plus two `int` counters.  Each operation is embedded as a function
from the map before the call to the returned `int` together with the map
after the call.  The mutexes guard disjoint critical sections and carry no
data, so the sequential semantics below leaves them out; the order of the
mutex calls of each operation is embedded on its own (`get_locks`,
`put_locks`, `del_locks`) together with threads that interleave them.

C `int` is 32 bits: keys and values are integers, the two counters are
incremented and decremented with two's complement wrap-around, and `%` is
C's truncating remainder.  An access `table[index]` outside the array, and
a remainder by zero, have no defined result: the operation yields `none`.
-/

namespace TsHashmap

/-- The largest `int`, used by the source as the "absent" return value. -/
def INT_MAX : Int := 2147483647

/-- The smallest `int`. -/
def INT_MIN : Int := -2147483648

/-- Two's complement reduction of an integer to the 32 bit `int` range. -/
def wrapInt (x : Int) : Int := (x + 2147483648) % 4294967296 - 2147483648

/-- One node of a bucket chain; the `next` link is the tail of the list
that holds the node. -/
structure ts_entry_t where
  key : Int
  value : Int
deriving DecidableEq, Repr

/-- The map record: `table[i]` is the chain of bucket `i`. -/
structure ts_hashmap_t where
  table : List (List ts_entry_t)
  capacity : Int
  numOps : Int
  size : Int
deriving DecidableEq, Repr

/-- `initmap`: `capacity` empty buckets, both counters zero. -/
def initmap (capacity : Int) : ts_hashmap_t :=
  { table := List.replicate capacity.toNat [],
    capacity := capacity,
    numOps := 0,
    size := 0 }

/-- The `while` loop of `get`: the value of the first entry whose key
matches, `INT_MAX` when the walk reaches the end of the chain. -/
def get_loop : List ts_entry_t → Int → Int
  | [], _ => INT_MAX
  | entry :: next, key =>
    if entry.key = key then entry.value else get_loop next key

/-- The `while` loop of `put`: overwrites the value of the first entry whose
key matches and yields its old value, or yields `INT_MAX` and the chain as
it was. -/
def put_loop : List ts_entry_t → Int → Int → Int × List ts_entry_t
  | [], _, _ => (INT_MAX, [])
  | entry :: next, key, value =>
    if entry.key = key then (entry.value, { entry with value := value } :: next)
    else ((put_loop next key value).1, entry :: (put_loop next key value).2)

/-- The `while` loop of `del`: unlinks the first entry whose key matches and
yields its value, or yields `INT_MAX` and the chain as it was. -/
def del_loop : List ts_entry_t → Int → Int × List ts_entry_t
  | [], _ => (INT_MAX, [])
  | entry :: next, key =>
    if entry.key = key then (entry.value, next)
    else ((del_loop next key).1, entry :: (del_loop next key).2)

/-- The read `map->table[index]`: defined for `0 <= index < length`. -/
def readBucket (table : List (List ts_entry_t)) (index : Int) :
    Option (List ts_entry_t) :=
  if index < 0 then none else table[index.toNat]?

/-- `get(map, key)`: the returned value and the map after the call. -/
def get (map : ts_hashmap_t) (key : Int) : Option (Int × ts_hashmap_t) :=
  if map.capacity = 0 then none
  else
    let index := Int.tmod key map.capacity
    match readBucket map.table index with
    | none => none
    | some chain =>
      let value := get_loop chain key
      some (value, { map with numOps := wrapInt (map.numOps + 1) })

/-- `put(map, key, value)`: the returned old value and the map after the
call.  The chain gets a new front entry when the loop left `old_value` at
`INT_MAX`; the `size` counter is incremented when `old_value` is not
`INT_MAX` (line 98 of the source). -/
def put (map : ts_hashmap_t) (key value : Int) : Option (Int × ts_hashmap_t) :=
  if map.capacity = 0 then none
  else
    let index := Int.tmod key map.capacity
    match readBucket map.table index with
    | none => none
    | some chain =>
      let walked := put_loop chain key value
      let old_value := walked.1
      let chain1 :=
        if old_value = INT_MAX then { key := key, value := value } :: walked.2
        else walked.2
      let size1 := if old_value ≠ INT_MAX then wrapInt (map.size + 1) else map.size
      some (old_value,
        { map with
          table := map.table.set index.toNat chain1,
          size := size1,
          numOps := wrapInt (map.numOps + 1) })

/-- `del(map, key)`: the returned value and the map after the call. -/
def del (map : ts_hashmap_t) (key : Int) : Option (Int × ts_hashmap_t) :=
  if map.capacity = 0 then none
  else
    let index := Int.tmod key map.capacity
    match readBucket map.table index with
    | none => none
    | some chain =>
      let walked := del_loop chain key
      let value := walked.1
      let size1 := if value ≠ INT_MAX then wrapInt (map.size - 1) else map.size
      some (value,
        { map with
          table := map.table.set index.toNat walked.2,
          size := size1,
          numOps := wrapInt (map.numOps + 1) })


/-- A call made on the map. -/
inductive Call where
  | get (key : Int)
  | put (key value : Int)
  | del (key : Int)
deriving DecidableEq, Repr

/-- The key a call is made with. -/
def Call.key : Call → Int
  | Call.get key => key
  | Call.put key _ => key
  | Call.del key => key

/-- Runs one call. -/
def step (map : ts_hashmap_t) : Call → Option (Int × ts_hashmap_t)
  | Call.get key => get map key
  | Call.put key value => put map key value
  | Call.del key => del map key

/-- Runs the calls in order, collecting the returned values. -/
def run (map : ts_hashmap_t) : List Call → Option (List Int × ts_hashmap_t)
  | [] => some ([], map)
  | c :: cs =>
    match step map c with
    | none => none
    | some (r, map1) =>
      match run map1 cs with
      | none => none
      | some (rs, map2) => some (r :: rs, map2)

/-- A map record as `initmap` builds it for a positive capacity: the table
has exactly `capacity` buckets. -/
def WellFormed (map : ts_hashmap_t) : Prop :=
  0 < map.capacity ∧ map.table.length = map.capacity.toNat

instance (map : ts_hashmap_t) : Decidable (WellFormed map) := by
  unfold WellFormed; infer_instance

/-- The chain of the bucket that `key` is looked up in. -/
def bucketOf (map : ts_hashmap_t) (key : Int) : List ts_entry_t :=
  (map.table[(Int.tmod key map.capacity).toNat]?).getD []

/-- The chain `put` leaves in the bucket it worked on. -/
def put_chain (chain : List ts_entry_t) (key value : Int) : List ts_entry_t :=
  if (put_loop chain key value).1 = INT_MAX then
    { key := key, value := value } :: (put_loop chain key value).2
  else (put_loop chain key value).2

/-- Keys of the entries of a chain, front first. -/
def chainKeys (chain : List ts_entry_t) : List Int :=
  chain.map ts_entry_t.key

/-- A chain with at most one entry per key and no stored `INT_MAX`. -/
def ChainOk (chain : List ts_entry_t) : Prop :=
  (chainKeys chain).Nodup ∧ ∀ e ∈ chain, e.value ≠ INT_MAX

/-- A well-formed map all of whose chains satisfy `ChainOk`. -/
def TableOk (map : ts_hashmap_t) : Prop :=
  WellFormed map ∧ ∀ chain ∈ map.table, ChainOk chain

/-- The key has an entry in the chain of its bucket, `key % capacity`. -/
def hasEntry (map : ts_hashmap_t) (key : Int) : Prop :=
  key ∈ chainKeys (bucketOf map key)

instance (map : ts_hashmap_t) (key : Int) : Decidable (hasEntry map key) := by
  unfold hasEntry; infer_instance

/-- No chain of the table stores the value `INT_MAX`. -/
def NoAbsentStored (map : ts_hashmap_t) : Prop :=
  ∀ chain ∈ map.table, ∀ e ∈ chain, e.value ≠ INT_MAX

instance (map : ts_hashmap_t) : Decidable (NoAbsentStored map) := by
  unfold NoAbsentStored; infer_instance

/-- Number of entries held in all bucket chains. -/
def totalEntries (map : ts_hashmap_t) : Nat :=
  (map.table.map List.length).sum

/-- A call whose key is not negative. -/
def Call.keyOk (c : Call) : Prop := 0 ≤ c.key

/-- A call that stores a value stores one other than `INT_MAX`. -/
def Call.valueOk : Call → Prop
  | Call.put _ value => value ≠ INT_MAX
  | _ => True

instance (c : Call) : Decidable c.keyOk := by
  unfold Call.keyOk; infer_instance

instance (c : Call) : Decidable c.valueOk := by
  cases c <;> unfold Call.valueOk <;> infer_instance

/-- A map of capacity 2 holding the single entry (2, 5), in bucket 0. -/
def oneEntryMap : ts_hashmap_t :=
  { table := [[{ key := 2, value := 5 }], []], capacity := 2, numOps := 1, size := 1 }

/-- The calls of the worked scenario on a map of capacity 4. -/
def scenario : List Call :=
  [Call.put 1 10, Call.put 5 20, Call.get 1, Call.get 5, Call.del 1,
   Call.get 1, Call.get 5]

/-- Every entry stored in the chain of bucket `i` has a key whose bucket
index `key % capacity` is `i`. -/
def Placed (map : ts_hashmap_t) : Prop :=
  ∀ (i : Nat) (chain : List ts_entry_t), map.table[i]? = some chain →
    ∀ e ∈ chain, Int.tmod e.key map.capacity = (i : Int)

/-- The calls `put(k, v)` for the listed pairs `(k, v)`, in order. -/
def putCalls (pairs : List (Int × Int)) : List Call :=
  pairs.map (fun p => Call.put p.1 p.2)

/-- The mutexes of a map: `tableLocks[index]`, `sizeLock` and `numOpsLock`. -/
inductive Lock where
  | tableLock (index : Int)
  | sizeLock
  | numOpsLock
deriving DecidableEq, Repr

/-- A call of `pthread_mutex_lock` or of `pthread_mutex_unlock`. -/
inductive LockEvent where
  | lock (l : Lock)
  | unlock (l : Lock)
deriving DecidableEq, Repr

/-- The mutex calls `get(map, key)` makes, in program order. -/
def get_locks (map : ts_hashmap_t) (key : Int) : Option (List LockEvent) :=
  if map.capacity = 0 then none
  else
    let index := Int.tmod key map.capacity
    match readBucket map.table index with
    | none => none
    | some _ =>
      some [LockEvent.lock (Lock.tableLock index), LockEvent.unlock (Lock.tableLock index),
        LockEvent.lock Lock.numOpsLock, LockEvent.unlock Lock.numOpsLock]

/-- The mutex calls `put(map, key, value)` makes, in program order; the
`sizeLock` section is entered when `old_value != INT_MAX`. -/
def put_locks (map : ts_hashmap_t) (key value : Int) : Option (List LockEvent) :=
  if map.capacity = 0 then none
  else
    let index := Int.tmod key map.capacity
    match readBucket map.table index with
    | none => none
    | some chain =>
      let old_value := (put_loop chain key value).1
      some ([LockEvent.lock (Lock.tableLock index), LockEvent.unlock (Lock.tableLock index)]
        ++ (if old_value ≠ INT_MAX
            then [LockEvent.lock Lock.sizeLock, LockEvent.unlock Lock.sizeLock] else [])
        ++ [LockEvent.lock Lock.numOpsLock, LockEvent.unlock Lock.numOpsLock])

/-- The mutex calls `del(map, key)` makes, in program order; the `sizeLock`
section is entered when `value != INT_MAX`. -/
def del_locks (map : ts_hashmap_t) (key : Int) : Option (List LockEvent) :=
  if map.capacity = 0 then none
  else
    let index := Int.tmod key map.capacity
    match readBucket map.table index with
    | none => none
    | some chain =>
      let value := (del_loop chain key).1
      some ([LockEvent.lock (Lock.tableLock index), LockEvent.unlock (Lock.tableLock index)]
        ++ (if value ≠ INT_MAX
            then [LockEvent.lock Lock.sizeLock, LockEvent.unlock Lock.sizeLock] else [])
        ++ [LockEvent.lock Lock.numOpsLock, LockEvent.unlock Lock.numOpsLock])

/-- The mutex calls one call makes. -/
def call_locks (map : ts_hashmap_t) : Call → Option (List LockEvent)
  | Call.get key => get_locks map key
  | Call.put key value => put_locks map key value
  | Call.del key => del_locks map key

/-- Number of acquisitions of a bucket lock in a sequence of mutex calls. -/
def bucketAcquires : List LockEvent → Nat
  | [] => 0
  | LockEvent.lock (Lock.tableLock _) :: rest => bucketAcquires rest + 1
  | _ :: rest => bucketAcquires rest

/-- Number of acquisitions of a counter lock (`sizeLock` or `numOpsLock`). -/
def counterAcquires : List LockEvent → Nat
  | [] => 0
  | LockEvent.lock Lock.sizeLock :: rest => counterAcquires rest + 1
  | LockEvent.lock Lock.numOpsLock :: rest => counterAcquires rest + 1
  | _ :: rest => counterAcquires rest

/-- A sequence of mutex calls made of sections `lock l, unlock l` that
follow one another: no lock is taken while another is held, and every lock
taken is released. -/
inductive Paired : List LockEvent → Prop where
  | nil : Paired []
  | pair (l : Lock) {rest : List LockEvent} :
      Paired rest → Paired (LockEvent.lock l :: LockEvent.unlock l :: rest)

/-- The mutex calls of one call of get, put or del with a key `>= 0` on some
map with capacity > 0, whatever state the call finds the map in. -/
def OpTrace (t : List LockEvent) : Prop :=
  ∃ map c, WellFormed map ∧ Call.keyOk c ∧ call_locks map c = some t

/-- Threads running get/put/del calls on shared mutexes: what each thread
has still to do, and the mutexes that are held. -/
structure LockState where
  threads : List (List LockEvent)
  held : List Lock
deriving DecidableEq, Repr

/-- Thread `i` makes its next mutex call: `lock l` needs `l` free (the thread
blocks otherwise), `unlock l` frees `l`. -/
def LockState.stepThread (s : LockState) (i : Nat) : Option LockState :=
  match s.threads[i]? with
  | some (LockEvent.lock l :: rest) =>
    if l ∈ s.held then none
    else some { threads := s.threads.set i rest, held := l :: s.held }
  | some (LockEvent.unlock l :: rest) =>
    some { threads := s.threads.set i rest, held := s.held.erase l }
  | _ => none

/-- Runs the threads in the order a schedule names them. -/
def LockState.exec (s : LockState) : List Nat → Option LockState
  | [] => some s
  | i :: sched =>
    match s.stepThread i with
    | none => none
    | some s1 => s1.exec sched

/-- Some thread has mutex calls left and no thread can make its next one. -/
def LockState.deadlocked (s : LockState) : Prop :=
  (∃ t ∈ s.threads, t ≠ []) ∧ ∀ i, s.stepThread i = none

/-- Two threads on `oneEntryMap`: one runs `del(2)` (a hit), the other
`get(4)` (a miss); both keys fall in bucket 0. -/
def twoThreads : List (List LockEvent) :=
  [[LockEvent.lock (Lock.tableLock 0), LockEvent.unlock (Lock.tableLock 0),
    LockEvent.lock Lock.sizeLock, LockEvent.unlock Lock.sizeLock,
    LockEvent.lock Lock.numOpsLock, LockEvent.unlock Lock.numOpsLock],
   [LockEvent.lock (Lock.tableLock 0), LockEvent.unlock (Lock.tableLock 0),
    LockEvent.lock Lock.numOpsLock, LockEvent.unlock Lock.numOpsLock]]

/-- The critical section on the lock of bucket `index`. -/
def bucketSection (index : Int) : List LockEvent :=
  [LockEvent.lock (Lock.tableLock index), LockEvent.unlock (Lock.tableLock index)]

/-- The critical section on `sizeLock`. -/
def sizeSection : List LockEvent :=
  [LockEvent.lock Lock.sizeLock, LockEvent.unlock Lock.sizeLock]

/-- The critical section on `numOpsLock`. -/
def numOpsSection : List LockEvent :=
  [LockEvent.lock Lock.numOpsLock, LockEvent.unlock Lock.numOpsLock]

/-! ## Index arithmetic and the shape of one call -/

theorem index_bounds {capacity key : Int} (hc : 0 < capacity) (hk : 0 ≤ key) :
    0 ≤ Int.tmod key capacity ∧ (Int.tmod key capacity).toNat < capacity.toNat := by
  have h1 : Int.tmod key capacity = key % capacity :=
    Int.tmod_eq_emod hk (le_of_lt hc)
  have h2 : 0 ≤ key % capacity := Int.emod_nonneg _ (ne_of_gt hc)
  have h3 : key % capacity < capacity := Int.emod_lt_of_pos _ hc
  rw [h1]
  refine ⟨h2, ?_⟩
  omega

theorem readBucket_eq {map : ts_hashmap_t} {key : Int} (hw : WellFormed map)
    (hk : 0 ≤ key) :
    readBucket map.table (Int.tmod key map.capacity) = some (bucketOf map key) := by
  obtain ⟨hc, hl⟩ := hw
  obtain ⟨h0, h1⟩ := index_bounds hc hk
  unfold readBucket bucketOf
  rw [if_neg (not_lt.mpr h0)]
  rw [← hl] at h1
  rw [List.getElem?_eq_getElem h1]
  rfl

theorem get_eq {map : ts_hashmap_t} {key : Int} (hw : WellFormed map) (hk : 0 ≤ key) :
    get map key = some (get_loop (bucketOf map key) key,
      { map with numOps := wrapInt (map.numOps + 1) }) := by
  unfold get
  rw [if_neg (ne_of_gt hw.1)]
  simp only [readBucket_eq hw hk]

theorem put_eq {map : ts_hashmap_t} {key : Int} (value : Int) (hw : WellFormed map)
    (hk : 0 ≤ key) :
    put map key value = some ((put_loop (bucketOf map key) key value).1,
      { map with
        table := map.table.set (Int.tmod key map.capacity).toNat
          (put_chain (bucketOf map key) key value),
        size := if (put_loop (bucketOf map key) key value).1 ≠ INT_MAX
          then wrapInt (map.size + 1) else map.size,
        numOps := wrapInt (map.numOps + 1) }) := by
  unfold put
  rw [if_neg (ne_of_gt hw.1)]
  simp only [readBucket_eq hw hk, put_chain]

theorem del_eq {map : ts_hashmap_t} {key : Int} (hw : WellFormed map) (hk : 0 ≤ key) :
    del map key = some ((del_loop (bucketOf map key) key).1,
      { map with
        table := map.table.set (Int.tmod key map.capacity).toNat
          (del_loop (bucketOf map key) key).2,
        size := if (del_loop (bucketOf map key) key).1 ≠ INT_MAX
          then wrapInt (map.size - 1) else map.size,
        numOps := wrapInt (map.numOps + 1) }) := by
  unfold del
  rw [if_neg (ne_of_gt hw.1)]
  simp only [readBucket_eq hw hk]

/-! ## The three chain walks -/

theorem put_loop_fst (chain : List ts_entry_t) (key value : Int) :
    (put_loop chain key value).1 = get_loop chain key := by
  induction chain with
  | nil => rfl
  | cons entry next ih =>
    by_cases h : entry.key = key
    · simp [put_loop, get_loop, h]
    · simp [put_loop, get_loop, h, ih]

theorem del_loop_fst (chain : List ts_entry_t) (key : Int) :
    (del_loop chain key).1 = get_loop chain key := by
  induction chain with
  | nil => rfl
  | cons entry next ih =>
    by_cases h : entry.key = key
    · simp [del_loop, get_loop, h]
    · simp [del_loop, get_loop, h, ih]

theorem get_loop_absent {chain : List ts_entry_t} {key : Int}
    (h : key ∉ chainKeys chain) : get_loop chain key = INT_MAX := by
  induction chain with
  | nil => rfl
  | cons entry next ih =>
    simp only [chainKeys, List.map_cons, List.mem_cons, not_or] at h
    have hne : ¬ entry.key = key := fun e => h.1 e.symm
    simp only [get_loop, if_neg hne]
    exact ih h.2

theorem get_loop_present {chain : List ts_entry_t} {key : Int}
    (hv : ∀ e ∈ chain, e.value ≠ INT_MAX) (h : key ∈ chainKeys chain) :
    get_loop chain key ≠ INT_MAX := by
  induction chain with
  | nil => simp [chainKeys] at h
  | cons entry next ih =>
    by_cases hk : entry.key = key
    · simp only [get_loop, if_pos hk]
      exact hv entry (List.mem_cons_self _ _)
    · simp only [get_loop, if_neg hk]
      simp only [chainKeys, List.map_cons, List.mem_cons] at h
      rcases h with h | h
      · exact absurd h.symm hk
      · exact ih (fun e he => hv e (List.mem_cons_of_mem _ he)) h

theorem put_loop_snd_absent {chain : List ts_entry_t} {key : Int} (value : Int)
    (h : key ∉ chainKeys chain) : (put_loop chain key value).2 = chain := by
  induction chain with
  | nil => rfl
  | cons entry next ih =>
    simp only [chainKeys, List.map_cons, List.mem_cons, not_or] at h
    have hne : ¬ entry.key = key := fun e => h.1 e.symm
    simp only [put_loop, if_neg hne]
    rw [ih h.2]

theorem del_loop_snd_absent {chain : List ts_entry_t} {key : Int}
    (h : key ∉ chainKeys chain) : (del_loop chain key).2 = chain := by
  induction chain with
  | nil => rfl
  | cons entry next ih =>
    simp only [chainKeys, List.map_cons, List.mem_cons, not_or] at h
    have hne : ¬ entry.key = key := fun e => h.1 e.symm
    simp only [del_loop, if_neg hne]
    rw [ih h.2]

theorem put_loop_keys (chain : List ts_entry_t) (key value : Int) :
    chainKeys (put_loop chain key value).2 = chainKeys chain := by
  induction chain with
  | nil => rfl
  | cons entry next ih =>
    by_cases h : entry.key = key
    · simp [put_loop, chainKeys, h]
    · simp only [put_loop, if_neg h]
      simp only [chainKeys, List.map_cons] at ih ⊢
      rw [ih]

theorem put_loop_values {chain : List ts_entry_t} {key value : Int} :
    ∀ e ∈ (put_loop chain key value).2, e.value = value ∨ e ∈ chain := by
  induction chain with
  | nil => intro e he; simp [put_loop] at he
  | cons entry next ih =>
    intro e he
    by_cases h : entry.key = key
    · simp only [put_loop, if_pos h, List.mem_cons] at he
      rcases he with he | he
      · left; rw [he]
      · right; exact List.mem_cons_of_mem _ he
    · simp only [put_loop, if_neg h, List.mem_cons] at he
      rcases he with he | he
      · right; rw [he]; exact List.mem_cons_self _ _
      · rcases ih e he with h1 | h1
        · left; exact h1
        · right; exact List.mem_cons_of_mem _ h1

theorem put_loop_hit {chain : List ts_entry_t} {key : Int} (value : Int)
    (h : key ∈ chainKeys chain) : get_loop (put_loop chain key value).2 key = value := by
  induction chain with
  | nil => simp [chainKeys] at h
  | cons entry next ih =>
    by_cases hk : entry.key = key
    · simp [put_loop, get_loop, hk]
    · simp only [put_loop, if_neg hk, get_loop]
      simp only [chainKeys, List.map_cons, List.mem_cons] at h
      rcases h with h | h
      · exact absurd h.symm hk
      · exact ih h

theorem del_loop_sublist (chain : List ts_entry_t) (key : Int) :
    List.Sublist (del_loop chain key).2 chain := by
  induction chain with
  | nil => exact List.Sublist.refl _
  | cons entry next ih =>
    by_cases h : entry.key = key
    · simp only [del_loop, if_pos h]
      exact List.sublist_cons_self _ _
    · simp only [del_loop, if_neg h]
      exact List.Sublist.cons₂ _ ih

theorem del_loop_gone {chain : List ts_entry_t} {key : Int}
    (h : (chainKeys chain).Nodup) : key ∉ chainKeys (del_loop chain key).2 := by
  induction chain with
  | nil => simp [del_loop, chainKeys]
  | cons entry next ih =>
    simp only [chainKeys, List.map_cons, List.nodup_cons] at h
    by_cases hk : entry.key = key
    · simp only [del_loop, if_pos hk]
      rw [← hk]; exact h.1
    · simp only [del_loop, if_neg hk, chainKeys, List.map_cons, List.mem_cons, not_or]
      exact ⟨fun e => hk e.symm, ih h.2⟩

/-- Reading back the key that `put` just worked on yields the value put. -/
theorem get_loop_put_chain (chain : List ts_entry_t) (key value : Int) :
    get_loop (put_chain chain key value) key = value := by
  unfold put_chain
  by_cases h : (put_loop chain key value).1 = INT_MAX
  · simp [h, get_loop]
  · rw [if_neg h]
    apply put_loop_hit
    by_contra hn
    exact h (by rw [put_loop_fst]; exact get_loop_absent hn)

theorem put_chain_keys {chain : List ts_entry_t} {key value : Int} :
    ∀ x ∈ chainKeys (put_chain chain key value), x = key ∨ x ∈ chainKeys chain := by
  intro x hx
  unfold put_chain at hx
  by_cases h : (put_loop chain key value).1 = INT_MAX
  · rw [if_pos h] at hx
    simp only [chainKeys, List.map_cons, List.mem_cons] at hx
    rcases hx with hx | hx
    · left; exact hx
    · right
      have := put_loop_keys chain key value
      simp only [chainKeys] at this
      rw [this] at hx
      exact hx
  · rw [if_neg h, put_loop_keys] at hx
    right; exact hx

theorem put_chain_ok {chain : List ts_entry_t} {key value : Int} (hc : ChainOk chain)
    (hv : value ≠ INT_MAX) : ChainOk (put_chain chain key value) := by
  obtain ⟨hn, hvals⟩ := hc
  unfold put_chain
  by_cases h : (put_loop chain key value).1 = INT_MAX
  · rw [if_pos h]
    have habs : key ∉ chainKeys chain := by
      intro hin
      exact get_loop_present hvals hin (by rw [← put_loop_fst chain key value]; exact h)
    rw [put_loop_snd_absent value habs]
    refine ⟨?_, ?_⟩
    · simp only [chainKeys, List.map_cons, List.nodup_cons]
      exact ⟨habs, hn⟩
    · intro e he
      simp only [List.mem_cons] at he
      rcases he with he | he
      · rw [he]; exact hv
      · exact hvals e he
  · rw [if_neg h]
    refine ⟨?_, ?_⟩
    · rw [put_loop_keys]; exact hn
    · intro e he
      rcases put_loop_values e he with h1 | h1
      · rw [h1]; exact hv
      · exact hvals e h1

theorem del_loop_ok {chain : List ts_entry_t} (key : Int) (hc : ChainOk chain) :
    ChainOk (del_loop chain key).2 := by
  obtain ⟨hn, hvals⟩ := hc
  have hs := del_loop_sublist chain key
  refine ⟨?_, ?_⟩
  · exact List.Nodup.sublist (List.Sublist.map _ hs) hn
  · intro e he
    exact hvals e (hs.subset he)

/-! ## One call on a well-formed map -/

theorem bucketOf_mem {map : ts_hashmap_t} {key : Int} (hw : WellFormed map)
    (hk : 0 ≤ key) : bucketOf map key ∈ map.table := by
  have h := readBucket_eq hw hk
  unfold readBucket at h
  rw [if_neg (not_lt.mpr (index_bounds hw.1 hk).1)] at h
  exact List.getElem?_mem h

theorem bucketOf_set {map : ts_hashmap_t} {key : Int} (hw : WellFormed map)
    (hk : 0 ≤ key) (chain : List ts_entry_t) (numOps size : Int) :
    bucketOf { table := map.table.set (Int.tmod key map.capacity).toNat chain,
               capacity := map.capacity, numOps := numOps, size := size } key
      = chain := by
  obtain ⟨hc, hl⟩ := hw
  have h1 := (index_bounds hc hk).2
  rw [← hl] at h1
  unfold bucketOf
  simp only [List.getElem?_set_self h1, Option.getD_some]

theorem set_bucketOf {map : ts_hashmap_t} {key : Int} (hw : WellFormed map)
    (hk : 0 ≤ key) :
    map.table.set (Int.tmod key map.capacity).toNat (bucketOf map key) = map.table := by
  obtain ⟨hc, hl⟩ := hw
  have h1 := (index_bounds hc hk).2
  rw [← hl] at h1
  apply List.ext_getElem?
  intro i
  by_cases hi : (Int.tmod key map.capacity).toNat = i
  · subst hi
    rw [List.getElem?_set_self h1]
    unfold bucketOf
    rw [List.getElem?_eq_getElem h1]
    rfl
  · rw [List.getElem?_set_ne hi]

theorem get_spec {map : ts_hashmap_t} {key : Int} (hw : WellFormed map) (hk : 0 ≤ key) :
    ∃ map1, get map key = some (get_loop (bucketOf map key) key, map1)
      ∧ WellFormed map1 ∧ map1.table = map.table ∧ map1.capacity = map.capacity
      ∧ map1.size = map.size ∧ map1.numOps = wrapInt (map.numOps + 1) :=
  ⟨_, get_eq hw hk, hw, rfl, rfl, rfl, rfl⟩

theorem put_spec {map : ts_hashmap_t} {key : Int} (value : Int) (hw : WellFormed map)
    (hk : 0 ≤ key) :
    ∃ map1, put map key value = some (get_loop (bucketOf map key) key, map1)
      ∧ WellFormed map1
      ∧ map1.table = map.table.set (Int.tmod key map.capacity).toNat
          (put_chain (bucketOf map key) key value)
      ∧ bucketOf map1 key = put_chain (bucketOf map key) key value
      ∧ map1.capacity = map.capacity
      ∧ map1.size = (if get_loop (bucketOf map key) key ≠ INT_MAX
          then wrapInt (map.size + 1) else map.size)
      ∧ map1.numOps = wrapInt (map.numOps + 1) := by
  rw [put_eq value hw hk, put_loop_fst]
  refine ⟨_, rfl, ?_, rfl, bucketOf_set hw hk _ _ _, rfl, rfl, rfl⟩
  exact ⟨hw.1, by simp only [List.length_set]; exact hw.2⟩

theorem del_spec {map : ts_hashmap_t} {key : Int} (hw : WellFormed map) (hk : 0 ≤ key) :
    ∃ map1, del map key = some (get_loop (bucketOf map key) key, map1)
      ∧ WellFormed map1
      ∧ map1.table = map.table.set (Int.tmod key map.capacity).toNat
          (del_loop (bucketOf map key) key).2
      ∧ bucketOf map1 key = (del_loop (bucketOf map key) key).2
      ∧ map1.capacity = map.capacity
      ∧ map1.size = (if get_loop (bucketOf map key) key ≠ INT_MAX
          then wrapInt (map.size - 1) else map.size)
      ∧ map1.numOps = wrapInt (map.numOps + 1) := by
  rw [del_eq hw hk, del_loop_fst]
  refine ⟨_, rfl, ?_, rfl, bucketOf_set hw hk _ _ _, rfl, rfl, rfl⟩
  exact ⟨hw.1, by simp only [List.length_set]; exact hw.2⟩

theorem initmap_wellFormed {capacity : Int} (hc : 0 < capacity) :
    WellFormed (initmap capacity) :=
  ⟨hc, by simp [initmap]⟩

theorem wrapInt_succ {x : Int} (h0 : INT_MIN ≤ x) (h1 : x < INT_MAX) :
    wrapInt (x + 1) = x + 1 := by
  unfold INT_MIN at h0
  unfold INT_MAX at h1
  unfold wrapInt
  omega

theorem wrapInt_pred {x : Int} (h0 : INT_MIN < x) (h1 : x ≤ INT_MAX) :
    wrapInt (x - 1) = x - 1 := by
  unfold INT_MIN at h0
  unfold INT_MAX at h1
  unfold wrapInt
  omega

/-! ## Round trip -/

/-- C1: on a map with capacity > 0 whose table has `capacity` buckets,
whatever the chains hold, for every key `k >= 0` and value `v` the call
`put(map, k, v)` returns, and `get(map, k)` made right after it returns `v`. -/
theorem put_then_get (map : ts_hashmap_t) (k v : Int) (hw : WellFormed map)
    (hk : 0 ≤ k) :
    ∃ r map1 map2, put map k v = some (r, map1) ∧ get map1 k = some (v, map2) := by
  obtain ⟨map1, hput, hw1, -, hb1, -⟩ := put_spec v hw hk
  obtain ⟨map2, hget, -⟩ := get_spec hw1 hk
  refine ⟨_, map1, map2, hput, ?_⟩
  rw [hget, hb1, get_loop_put_chain]

theorem put_then_get_witness :
    WellFormed (initmap 2) ∧ (0 : Int) ≤ 3 ∧
      ∃ r map1 map2, put (initmap 2) 3 7 = some (r, map1) ∧ get map1 3 = some (7, map2) :=
  ⟨by decide, by decide, put_then_get (initmap 2) 3 7 (by decide) (by decide)⟩

/-! ## Runs of calls and the chain invariant -/

theorem initmap_tableOk {capacity : Int} (hc : 0 < capacity) :
    TableOk (initmap capacity) := by
  refine ⟨initmap_wellFormed hc, ?_⟩
  intro chain hmem
  have : chain = [] := List.eq_of_mem_replicate hmem
  subst this
  exact ⟨List.nodup_nil, fun e he => absurd he (List.not_mem_nil e)⟩

theorem tableOk_set {map map1 : ts_hashmap_t} {i : Nat} {chain : List ts_entry_t}
    (hI : TableOk map) (hw1 : WellFormed map1) (ht : map1.table = map.table.set i chain)
    (hc : ChainOk chain) : TableOk map1 := by
  refine ⟨hw1, ?_⟩
  intro c hmem
  rw [ht] at hmem
  rcases List.mem_or_eq_of_mem_set hmem with h | h
  · exact hI.2 c h
  · rw [h]; exact hc

theorem step_tableOk {map : ts_hashmap_t} {c : Call} (hI : TableOk map)
    (hk : c.keyOk) (hv : c.valueOk) :
    ∃ r map1, step map c = some (r, map1) ∧ TableOk map1 := by
  cases c with
  | get key =>
    obtain ⟨map1, hget, hw1, ht, -⟩ := get_spec hI.1 hk
    exact ⟨_, map1, hget, hw1, by rw [ht]; exact hI.2⟩
  | put key value =>
    obtain ⟨map1, hput, hw1, ht, -⟩ := put_spec value hI.1 hk
    refine ⟨_, map1, hput, tableOk_set hI hw1 ht ?_⟩
    exact put_chain_ok (hI.2 _ (bucketOf_mem hI.1 hk)) hv
  | del key =>
    obtain ⟨map1, hdel, hw1, ht, -⟩ := del_spec hI.1 hk
    refine ⟨_, map1, hdel, tableOk_set hI hw1 ht ?_⟩
    exact del_loop_ok key (hI.2 _ (bucketOf_mem hI.1 hk))

theorem run_cons_eq {map map1 map2 : ts_hashmap_t} {c : Call} {cs : List Call}
    {r : Int} {rs : List Int} (h1 : step map c = some (r, map1))
    (h2 : run map1 cs = some (rs, map2)) : run map (c :: cs) = some (r :: rs, map2) := by
  simp only [run, h1, h2]

theorem run_tableOk {calls : List Call} :
    ∀ {map : ts_hashmap_t}, TableOk map → (∀ c ∈ calls, c.keyOk ∧ c.valueOk) →
      ∃ rs map1, run map calls = some (rs, map1) ∧ TableOk map1 := by
  induction calls with
  | nil => intro map hI _; exact ⟨[], map, rfl, hI⟩
  | cons c cs ih =>
    intro map hI hcs
    have hc := hcs c (List.mem_cons_self _ _)
    obtain ⟨r, map1, hstep, hI1⟩ := step_tableOk hI hc.1 hc.2
    obtain ⟨rs, map2, hrun, hI2⟩ := ih hI1 (fun x hx => hcs x (List.mem_cons_of_mem _ hx))
    exact ⟨r :: rs, map2, run_cons_eq hstep hrun, hI2⟩

/-! ## Delete after put -/

/-- C2: in every state reached from `initmap(capacity)`, `capacity > 0`, by
get/put/del calls with keys `>= 0` that never store `INT_MAX`, for `k >= 0`
and `v != INT_MAX` the calls `put(k, v)`, `del(k)`, `get(k)` made in a row all
return, `del` returns `v` and the `get` returns `INT_MAX`. -/
theorem put_then_del_then_get (capacity : Int) (calls : List Call) (k v : Int)
    (hc : 0 < capacity) (hcalls : ∀ c ∈ calls, c.keyOk ∧ c.valueOk)
    (hk : 0 ≤ k) (hv : v ≠ INT_MAX) :
    ∃ rs map, run (initmap capacity) calls = some (rs, map) ∧
      ∃ r map1 map2 map3, put map k v = some (r, map1) ∧
        del map1 k = some (v, map2) ∧ get map2 k = some (INT_MAX, map3) := by
  obtain ⟨rs, map, hrun, hI⟩ := run_tableOk (initmap_tableOk hc) hcalls
  refine ⟨rs, map, hrun, ?_⟩
  obtain ⟨map1, hput, hw1, -, hb1, -⟩ := put_spec v hI.1 hk
  obtain ⟨map2, hdel, hw2, -, hb2, -⟩ := del_spec hw1 hk
  obtain ⟨map3, hget, -⟩ := get_spec hw2 hk
  refine ⟨_, map1, map2, map3, hput, ?_, ?_⟩
  · rw [hdel, hb1, get_loop_put_chain]
  · rw [hget, hb2, hb1]
    have hok : ChainOk (put_chain (bucketOf map k) k v) :=
      put_chain_ok (hI.2 _ (bucketOf_mem hI.1 hk)) hv
    rw [get_loop_absent (del_loop_gone hok.1)]

theorem put_then_del_then_get_witness :
    ∃ rs map, run (initmap 2) [Call.put 1 4, Call.put 3 5, Call.del 1] = some (rs, map) ∧
      ∃ r map1 map2 map3, put map 3 9 = some (r, map1) ∧
        del map1 3 = some (9, map2) ∧ get map2 3 = some (INT_MAX, map3) :=
  put_then_del_then_get 2 [Call.put 1 4, Call.put 3 5, Call.del 1] 3 9 (by decide)
    (by decide) (by decide) (by decide)

/-! ## The live-entry counter on `put` -/

/-- C3 (evaluation at the failing input): on `initmap(1)` the call
`put(0, 5)` inserts a new entry and returns `INT_MAX`, yet `size` stays 0;
the following `put(0, 6)` is an update returning 5, and `size` becomes 1. -/
theorem put_size_on_insert_and_update :
    put (initmap 1) 0 5 = some (INT_MAX,
        { table := [[{ key := 0, value := 5 }]], capacity := 1, numOps := 1, size := 0 }) ∧
      put { table := [[{ key := 0, value := 5 }]], capacity := 1, numOps := 1, size := 0 } 0 6
        = some (5,
        { table := [[{ key := 0, value := 6 }]], capacity := 1, numOps := 2, size := 1 }) := by
  decide

/-- C4 (evaluation at the failing input): three distinct keys of bucket 0
inserted into `initmap(2)` leave three entries in the chains and `size` 0. -/
theorem size_after_three_colliding_inserts :
    ∃ map, run (initmap 2) [Call.put 0 1, Call.put 2 1, Call.put 4 1]
        = some ([INT_MAX, INT_MAX, INT_MAX], map)
      ∧ totalEntries map = 3 ∧ map.size = 0 :=
  ⟨{ table := [[{ key := 4, value := 1 }, { key := 2, value := 1 }, { key := 0, value := 1 }], []],
     capacity := 2, numOps := 3, size := 0 }, by decide, by decide, by decide⟩

/-! ## The operation counter -/

theorem step_numOps {map : ts_hashmap_t} {c : Call} (hw : WellFormed map)
    (hk : c.keyOk) :
    ∃ r map1, step map c = some (r, map1) ∧ WellFormed map1
      ∧ map1.numOps = wrapInt (map.numOps + 1) := by
  cases c with
  | get key =>
    obtain ⟨map1, h, hw1, -, -, -, hn⟩ := get_spec hw hk
    exact ⟨_, map1, h, hw1, hn⟩
  | put key value =>
    obtain ⟨map1, h, hw1, -, -, -, -, hn⟩ := put_spec value hw hk
    exact ⟨_, map1, h, hw1, hn⟩
  | del key =>
    obtain ⟨map1, h, hw1, -, -, -, -, hn⟩ := del_spec hw hk
    exact ⟨_, map1, h, hw1, hn⟩

theorem run_numOps {calls : List Call} :
    ∀ {map : ts_hashmap_t}, WellFormed map → (∀ c ∈ calls, c.keyOk) →
      0 ≤ map.numOps → map.numOps + calls.length ≤ INT_MAX →
      ∃ rs map1, run map calls = some (rs, map1)
        ∧ map1.numOps = map.numOps + calls.length := by
  induction calls with
  | nil => intro map _ _ _ _; exact ⟨[], map, rfl, by simp⟩
  | cons c cs ih =>
    intro map hw hcs h0 hn
    simp only [List.length_cons, Nat.cast_add, Nat.cast_one] at hn
    obtain ⟨r, map1, hstep, hw1, hn1⟩ := step_numOps hw (hcs c (List.mem_cons_self _ _))
    have hlen : (0 : Int) ≤ cs.length := Int.natCast_nonneg _
    have hwrap : wrapInt (map.numOps + 1) = map.numOps + 1 :=
      wrapInt_succ (by unfold INT_MIN; omega) (by omega)
    rw [hwrap] at hn1
    obtain ⟨rs, map2, hrun, hn2⟩ :=
      ih hw1 (fun x hx => hcs x (List.mem_cons_of_mem _ hx)) (by omega) (by omega)
    refine ⟨r :: rs, map2, run_cons_eq hstep hrun, ?_⟩
    simp only [List.length_cons, Nat.cast_add, Nat.cast_one]
    omega

/-- C5: starting from `initmap(capacity)`, `capacity > 0`, every sequence of
`N <= INT_MAX` calls to get, put and del with keys `>= 0` (any mix, any
values, hit or miss) runs to completion and leaves `numOps` equal to `N`. -/
theorem numOps_counts_calls (capacity : Int) (calls : List Call) (hc : 0 < capacity)
    (hkeys : ∀ c ∈ calls, c.keyOk) (hn : (calls.length : Int) ≤ INT_MAX) :
    ∃ rs map, run (initmap capacity) calls = some (rs, map)
      ∧ map.numOps = calls.length := by
  obtain ⟨rs, map, hrun, hnum⟩ :=
    @run_numOps calls (initmap capacity) (initmap_wellFormed hc) hkeys (le_refl _)
      (by simpa [initmap] using hn)
  refine ⟨rs, map, hrun, ?_⟩
  rw [hnum]
  simp [initmap]

theorem numOps_counts_calls_witness :
    ∃ rs map, run (initmap 3) [Call.put 4 1, Call.get 9, Call.del 4, Call.del 4]
        = some (rs, map)
      ∧ map.numOps = ([Call.put 4 1, Call.get 9, Call.del 4, Call.del 4].length : Int) :=
  numOps_counts_calls 3 [Call.put 4 1, Call.get 9, Call.del 4, Call.del 4] (by decide)
    (by decide) (by decide)

/-! ## Update -/

/-- C6: on a map with capacity > 0, for `k >= 0` and any `v1`, `v2`, the
calls `put(k, v1)`, `put(k, v2)`, `get(k)` made in a row all return, the
second `put` returns `v1` and the `get` returns `v2`. -/
theorem put_put_get (map : ts_hashmap_t) (k v1 v2 : Int) (hw : WellFormed map)
    (hk : 0 ≤ k) :
    ∃ r1 map1 map2 map3, put map k v1 = some (r1, map1) ∧
      put map1 k v2 = some (v1, map2) ∧ get map2 k = some (v2, map3) := by
  obtain ⟨map1, hput1, hw1, -, hb1, -⟩ := put_spec v1 hw hk
  obtain ⟨map2, hput2, hw2, -, hb2, -⟩ := put_spec v2 hw1 hk
  obtain ⟨map3, hget, -⟩ := get_spec hw2 hk
  refine ⟨_, map1, map2, map3, hput1, ?_, ?_⟩
  · rw [hput2, hb1, get_loop_put_chain]
  · rw [hget, hb2, get_loop_put_chain]

theorem put_put_get_witness :
    WellFormed (initmap 4) ∧ (0 : Int) ≤ 6 ∧
      ∃ r1 map1 map2 map3, put (initmap 4) 6 INT_MAX = some (r1, map1) ∧
        put map1 6 8 = some (INT_MAX, map2) ∧ get map2 6 = some (8, map3) :=
  ⟨by decide, by decide, put_put_get (initmap 4) 6 INT_MAX 8 (by decide) (by decide)⟩

/-- C7: on a map with capacity > 0 in which `k >= 0` has no entry, for
`v1 != INT_MAX` and any `v2`, after `put(k, v1)` and `put(k, v2)` the `size`
counter is its old value plus 1 (the old value being an `int` below
`INT_MAX`, so that the sum is an `int`). -/
theorem put_put_size (map : ts_hashmap_t) (k v1 v2 : Int) (hw : WellFormed map)
    (hk : 0 ≤ k) (habs : ¬ hasEntry map k) (hv1 : v1 ≠ INT_MAX)
    (hlo : INT_MIN ≤ map.size) (hhi : map.size < INT_MAX) :
    ∃ r1 map1 r2 map2, put map k v1 = some (r1, map1) ∧
      put map1 k v2 = some (r2, map2) ∧ map2.size = map.size + 1 := by
  obtain ⟨map1, hput1, hw1, -, hb1, -, hs1, -⟩ := put_spec v1 hw hk
  obtain ⟨map2, hput2, -, -, -, -, hs2, -⟩ := put_spec v2 hw1 hk
  refine ⟨_, map1, _, map2, hput1, hput2, ?_⟩
  rw [hb1, get_loop_put_chain, if_pos hv1] at hs2
  rw [get_loop_absent habs] at hs1
  simp only [ne_eq, not_true_eq_false, if_false] at hs1
  rw [hs2, hs1, wrapInt_succ hlo hhi]

theorem put_put_size_witness :
    ∃ r1 map1 r2 map2, put (initmap 4) 6 3 = some (r1, map1) ∧
      put map1 6 8 = some (r2, map2) ∧ map2.size = (initmap 4).size + 1 :=
  put_put_size (initmap 4) 6 3 8 (by decide) (by decide) (by decide) (by decide)
    (by decide) (by decide)

/-! ## The live-entry counter on `del` -/

/-- C8: on a map with capacity > 0 that stores no `INT_MAX`, for `k >= 0`:
if `k` has an entry in its bucket then `del(k)` returns and leaves `size`
one less (`size` being an `int` above `INT_MIN`, so that the difference is
an `int`); if `k` has no entry there then `del(k)` returns `INT_MAX` and
leaves `size` and the whole table unchanged. -/
theorem del_size (map : ts_hashmap_t) (k : Int) (hw : WellFormed map) (hk : 0 ≤ k)
    (hvals : NoAbsentStored map) :
    (hasEntry map k → INT_MIN < map.size → map.size ≤ INT_MAX →
        ∃ r map1, del map k = some (r, map1) ∧ map1.size = map.size - 1) ∧
      (¬ hasEntry map k →
        ∃ map1, del map k = some (INT_MAX, map1) ∧ map1.size = map.size
          ∧ map1.table = map.table) := by
  obtain ⟨map1, hdel, -, ht, -, -, hs, -⟩ := del_spec hw hk
  constructor
  · intro hin hlo hhi
    refine ⟨_, map1, hdel, ?_⟩
    have hne : get_loop (bucketOf map k) k ≠ INT_MAX :=
      get_loop_present (hvals _ (bucketOf_mem hw hk)) hin
    rw [hs, if_pos hne, wrapInt_pred hlo hhi]
  · intro hout
    have habs : get_loop (bucketOf map k) k = INT_MAX := get_loop_absent hout
    rw [habs] at hdel hs
    refine ⟨map1, hdel, ?_, ?_⟩
    · rw [hs]; simp
    · rw [ht, del_loop_snd_absent hout, set_bucketOf hw hk]

theorem del_size_witness :
    (∃ r map1, del oneEntryMap 2 = some (r, map1) ∧ map1.size = oneEntryMap.size - 1) ∧
      (∃ map1, del oneEntryMap 1 = some (INT_MAX, map1) ∧ map1.size = oneEntryMap.size
        ∧ map1.table = oneEntryMap.table) :=
  ⟨(del_size oneEntryMap 2 (by decide) (by decide) (by decide)).1 (by decide) (by decide)
      (by decide),
    (del_size oneEntryMap 1 (by decide) (by decide) (by decide)).2 (by decide)⟩

/-! ## Absence -/

theorem readBucket_mem {table : List (List ts_entry_t)} {index : Int}
    {chain : List ts_entry_t} (h : readBucket table index = some chain) :
    chain ∈ table := by
  unfold readBucket at h
  split at h
  · exact absurd h (by simp)
  · exact List.getElem?_mem h

theorem get_some {map map1 : ts_hashmap_t} {key r : Int}
    (h : get map key = some (r, map1)) :
    map1.table = map.table ∧ map1.capacity = map.capacity := by
  by_cases hcap : map.capacity = 0
  · simp [get, hcap] at h
  · cases hread : readBucket map.table (Int.tmod key map.capacity) with
    | none => simp [get, hcap, hread] at h
    | some chain =>
      simp only [get, if_neg hcap, hread, Option.some.injEq, Prod.mk.injEq] at h
      rw [← h.2]
      exact ⟨rfl, rfl⟩

theorem put_some {map map1 : ts_hashmap_t} {key value r : Int}
    (h : put map key value = some (r, map1)) :
    ∃ chain ∈ map.table,
      map1.table = map.table.set (Int.tmod key map.capacity).toNat
        (put_chain chain key value) ∧ map1.capacity = map.capacity := by
  by_cases hcap : map.capacity = 0
  · simp [put, hcap] at h
  · cases hread : readBucket map.table (Int.tmod key map.capacity) with
    | none => simp [put, hcap, hread] at h
    | some chain =>
      simp only [put, if_neg hcap, hread, Option.some.injEq, Prod.mk.injEq] at h
      rw [← h.2]
      exact ⟨chain, readBucket_mem hread, rfl, rfl⟩

theorem del_some {map map1 : ts_hashmap_t} {key r : Int}
    (h : del map key = some (r, map1)) :
    ∃ chain ∈ map.table,
      map1.table = map.table.set (Int.tmod key map.capacity).toNat
        (del_loop chain key).2 ∧ map1.capacity = map.capacity := by
  by_cases hcap : map.capacity = 0
  · simp [del, hcap] at h
  · cases hread : readBucket map.table (Int.tmod key map.capacity) with
    | none => simp [del, hcap, hread] at h
    | some chain =>
      simp only [del, if_neg hcap, hread, Option.some.injEq, Prod.mk.injEq] at h
      rw [← h.2]
      exact ⟨chain, readBucket_mem hread, rfl, rfl⟩

theorem step_keeps_absent {map map1 : ts_hashmap_t} {c : Call} {r k : Int}
    (h : step map c = some (r, map1)) (hw : WellFormed map)
    (hc : ∀ v, c ≠ Call.put k v)
    (habs : ∀ chain ∈ map.table, k ∉ chainKeys chain) :
    WellFormed map1 ∧ ∀ chain ∈ map1.table, k ∉ chainKeys chain := by
  cases c with
  | get key =>
    obtain ⟨ht, hcap⟩ := get_some h
    exact ⟨⟨by rw [hcap]; exact hw.1, by rw [ht, hcap]; exact hw.2⟩,
      by rw [ht]; exact habs⟩
  | put key value =>
    obtain ⟨chain0, hmem0, ht, hcap⟩ := put_some h
    refine ⟨⟨by rw [hcap]; exact hw.1,
      by rw [ht, hcap, List.length_set]; exact hw.2⟩, ?_⟩
    intro chain hmem
    rw [ht] at hmem
    rcases List.mem_or_eq_of_mem_set hmem with h1 | h1
    · exact habs chain h1
    · rw [h1]
      intro hin
      rcases put_chain_keys k hin with h2 | h2
      · exact hc value (by rw [h2])
      · exact habs _ hmem0 h2
  | del key =>
    obtain ⟨chain0, hmem0, ht, hcap⟩ := del_some h
    refine ⟨⟨by rw [hcap]; exact hw.1,
      by rw [ht, hcap, List.length_set]; exact hw.2⟩, ?_⟩
    intro chain hmem
    rw [ht] at hmem
    rcases List.mem_or_eq_of_mem_set hmem with h1 | h1
    · exact habs chain h1
    · rw [h1]
      intro hin
      exact habs _ hmem0
        ((List.Sublist.map _ (del_loop_sublist chain0 key)).subset hin)

theorem run_keeps_absent {calls : List Call} {k : Int} :
    ∀ {map map1 : ts_hashmap_t} {rs : List Int}, run map calls = some (rs, map1) →
      WellFormed map → (∀ c ∈ calls, ∀ v, c ≠ Call.put k v) →
      (∀ chain ∈ map.table, k ∉ chainKeys chain) →
      WellFormed map1 ∧ ∀ chain ∈ map1.table, k ∉ chainKeys chain := by
  induction calls with
  | nil =>
    intro map map1 rs h hw _ habs
    simp only [run, Option.some.injEq, Prod.mk.injEq] at h
    rw [← h.2]
    exact ⟨hw, habs⟩
  | cons c cs ih =>
    intro map map1 rs h hw hnp habs
    simp only [run] at h
    split at h
    · exact absurd h (by simp)
    · rename_i r mapA hstep
      split at h
      · exact absurd h (by simp)
      · rename_i rs1 mapB hrun
        simp only [Option.some.injEq, Prod.mk.injEq] at h
        obtain ⟨hwA, habsA⟩ :=
          step_keeps_absent hstep hw (hnp c (List.mem_cons_self _ _)) habs
        have := ih hrun hwA (fun x hx => hnp x (List.mem_cons_of_mem _ hx)) habsA
        rw [← h.2]
        exact this

theorem step_returns {map : ts_hashmap_t} {c : Call} (hw : WellFormed map)
    (hk : c.keyOk) : ∃ r map1, step map c = some (r, map1) ∧ WellFormed map1 := by
  obtain ⟨r, map1, h, hw1, -⟩ := step_numOps hw hk
  exact ⟨r, map1, h, hw1⟩

theorem run_returns {calls : List Call} :
    ∀ {map : ts_hashmap_t}, WellFormed map → (∀ c ∈ calls, c.keyOk) →
      ∃ rs map1, run map calls = some (rs, map1) := by
  induction calls with
  | nil => intro map _ _; exact ⟨[], map, rfl⟩
  | cons c cs ih =>
    intro map hw hks
    obtain ⟨r, map1, hstep, hw1⟩ := step_returns hw (hks c (List.mem_cons_self _ _))
    obtain ⟨rs, map2, hrun⟩ := ih hw1 (fun x hx => hks x (List.mem_cons_of_mem _ hx))
    exact ⟨r :: rs, map2, run_cons_eq hstep hrun⟩

/-- C9: for `capacity > 0` and `k >= 0`, consider any sequence of
get/put/del calls none of which is a `put` with key `k` (the empty sequence
gives `initmap(capacity)` itself).  On every map the sequence leaves,
`get(k)` returns `INT_MAX`; and when the keys of the calls are `>= 0` the
sequence does run to completion. -/
theorem get_never_put (capacity k : Int) (calls : List Call) (hc : 0 < capacity)
    (hk : 0 ≤ k) (hnp : ∀ c ∈ calls, ∀ v, c ≠ Call.put k v) :
    (∀ rs map, run (initmap capacity) calls = some (rs, map) →
        ∃ map1, get map k = some (INT_MAX, map1)) ∧
      ((∀ c ∈ calls, c.keyOk) → ∃ rs map, run (initmap capacity) calls = some (rs, map)) := by
  have h0 : ∀ chain ∈ (initmap capacity).table, k ∉ chainKeys chain := by
    intro chain hmem
    have : chain = [] := List.eq_of_mem_replicate hmem
    subst this
    simp [chainKeys]
  constructor
  · intro rs map hrun
    obtain ⟨hw, habs⟩ := run_keeps_absent hrun (initmap_wellFormed hc) hnp h0
    obtain ⟨map1, hget, -⟩ := get_spec hw hk
    refine ⟨map1, ?_⟩
    rw [hget, get_loop_absent (habs _ (bucketOf_mem hw hk))]
  · intro hkeys
    exact run_returns (initmap_wellFormed hc) hkeys

theorem get_never_put_witness :
    ∃ map1, get { table := [[], [{ key := 5, value := 6 }, { key := 3, value := 4 }]],
                  capacity := 2, numOps := 4, size := 0 } 1 = some (INT_MAX, map1) :=
  (get_never_put 2 1 [Call.put 3 4, Call.del 1, Call.get 1, Call.put 5 6] (by decide)
    (by decide) (by simp)).1 [INT_MAX, INT_MAX, INT_MAX, INT_MAX]
    { table := [[], [{ key := 5, value := 6 }, { key := 3, value := 4 }]],
      capacity := 2, numOps := 4, size := 0 } (by decide)

/-! ## The worked scenario -/

/-- C10 (as stated, refuted): on `initmap(4)` the seven calls of the scenario
do not leave `numOps` at 5 and `size` at 1. -/
theorem scenario_counters_not_five_and_one :
    ¬ ∃ map, run (initmap 4) scenario
        = some ([INT_MAX, INT_MAX, 10, 20, 10, INT_MAX, 20], map)
      ∧ map.numOps = 5 ∧ map.size = 1 := by
  rintro ⟨map, hrun, hn, -⟩
  have h : run (initmap 4) scenario = some ([INT_MAX, INT_MAX, 10, 20, 10, INT_MAX, 20],
      { table := [[], [{ key := 5, value := 20 }], [], []], capacity := 4, numOps := 7,
        size := -1 }) := by decide
  rw [h] at hrun
  simp only [Option.some.injEq, Prod.mk.injEq, true_and] at hrun
  rw [← hrun] at hn
  exact absurd hn (by decide)

/-- C10 (amended): on `initmap(4)` the calls put(1,10), put(5,20), get(1),
get(5), del(1), get(1), get(5) return `INT_MAX`, `INT_MAX`, 10, 20, 10,
`INT_MAX`, 20 and leave `numOps` at 7, one per call. -/
theorem scenario_returns_and_numOps :
    ∃ map, run (initmap 4) scenario
        = some ([INT_MAX, INT_MAX, 10, 20, 10, INT_MAX, 20], map)
      ∧ map.numOps = 7 :=
  ⟨{ table := [[], [{ key := 5, value := 20 }], [], []], capacity := 4, numOps := 7,
     size := -1 }, by decide, by decide⟩

/-! ## Key uniqueness -/

/-- C12: in every state reached from `initmap(capacity)`, `capacity > 0`, by
get/put/del calls with keys `>= 0` that never store `INT_MAX`, the keys of
every bucket chain are pairwise distinct: at most one entry per key. -/
theorem reachable_keys_unique (capacity : Int) (calls : List Call) (hc : 0 < capacity)
    (hcalls : ∀ c ∈ calls, c.keyOk ∧ c.valueOk) :
    ∃ rs map, run (initmap capacity) calls = some (rs, map) ∧
      ∀ chain ∈ map.table, (chainKeys chain).Nodup := by
  obtain ⟨rs, map, hrun, hI⟩ := run_tableOk (initmap_tableOk hc) hcalls
  exact ⟨rs, map, hrun, fun chain hmem => (hI.2 chain hmem).1⟩

theorem reachable_keys_unique_witness :
    ∃ rs map, run (initmap 2) [Call.put 1 4, Call.put 3 5, Call.put 1 6, Call.del 3]
        = some (rs, map) ∧
      ∀ chain ∈ map.table, (chainKeys chain).Nodup :=
  reachable_keys_unique 2 [Call.put 1 4, Call.put 3 5, Call.put 1 6, Call.del 3]
    (by decide) (by decide)

/-! ## `get` is read-only -/

/-- C13: on a map with capacity > 0, for `k >= 0`, hit or miss, `get(map, k)`
returns and leaves `capacity`, the whole table and `size` unchanged; `numOps`
is incremented once, which is its old value plus 1 whenever the old value is
an `int` below `INT_MAX`. -/
theorem get_read_only (map : ts_hashmap_t) (k : Int) (hw : WellFormed map) (hk : 0 ≤ k) :
    ∃ r map1, get map k = some (r, map1) ∧ map1.capacity = map.capacity
      ∧ map1.table = map.table ∧ map1.size = map.size
      ∧ map1.numOps = wrapInt (map.numOps + 1)
      ∧ (INT_MIN ≤ map.numOps → map.numOps < INT_MAX → map1.numOps = map.numOps + 1) := by
  obtain ⟨map1, hget, -, ht, hcap, hs, hn⟩ := get_spec hw hk
  refine ⟨_, map1, hget, hcap, ht, hs, hn, ?_⟩
  intro hlo hhi
  rw [hn, wrapInt_succ hlo hhi]

theorem get_read_only_witness :
    ∃ r map1, get oneEntryMap 2 = some (r, map1) ∧ map1.table = oneEntryMap.table
      ∧ map1.size = oneEntryMap.size ∧ map1.numOps = oneEntryMap.numOps + 1 := by
  obtain ⟨r, map1, h, -, ht, hs, -, hn⟩ := get_read_only oneEntryMap 2 (by decide) (by decide)
  exact ⟨r, map1, h, ht, hs, hn (by decide) (by decide)⟩

/-! ## `initmap` -/

/-- C14: for `capacity > 0`, `initmap(capacity)` has its `capacity` field equal
to the argument, a table of exactly `capacity` buckets, every bucket empty,
and `size` and `numOps` both 0. -/
theorem initmap_post (capacity : Int) (hc : 0 < capacity) :
    (initmap capacity).capacity = capacity
      ∧ ((initmap capacity).table.length : Int) = capacity
      ∧ (∀ chain ∈ (initmap capacity).table, chain = [])
      ∧ (initmap capacity).size = 0 ∧ (initmap capacity).numOps = 0 := by
  refine ⟨rfl, ?_, ?_, rfl, rfl⟩
  · simp only [initmap, List.length_replicate]
    exact Int.toNat_of_nonneg (le_of_lt hc)
  · intro chain hmem
    exact List.eq_of_mem_replicate hmem

theorem initmap_post_witness :
    (initmap 3).capacity = 3 ∧ ((initmap 3).table.length : Int) = 3
      ∧ (∀ chain ∈ (initmap 3).table, chain = [])
      ∧ (initmap 3).size = 0 ∧ (initmap 3).numOps = 0 :=
  initmap_post 3 (by decide)

/-! ## Storing `INT_MAX` -/

/-- C19: on `initmap(1)` the calls `put(0, INT_MAX)`, `put(0, 3)` leave two
entries with key 0 in the chain of bucket 0, and after one `del(0)` the call
`get(0)` still returns 3, a value other than `INT_MAX`. -/
theorem stored_sentinel_duplicates_key :
    ∃ capacity k v, 0 < capacity ∧ 0 ≤ k ∧ v ≠ INT_MAX ∧
      ∃ rs map, run (initmap capacity) [Call.put k INT_MAX, Call.put k v] = some (rs, map)
        ∧ (bucketOf map k).countP (fun e => e.key = k) = 2
        ∧ ∃ r map1 r1 map2, del map k = some (r, map1)
          ∧ get map1 k = some (r1, map2) ∧ r1 ≠ INT_MAX :=
  ⟨1, 0, 3, by decide, by decide, by decide, [INT_MAX, INT_MAX],
    { table := [[{ key := 0, value := 3 }, { key := 0, value := 3 }]], capacity := 1,
      numOps := 2, size := 0 },
    by decide, by decide, 3,
    { table := [[{ key := 0, value := 3 }]], capacity := 1, numOps := 3, size := -1 }, 3,
    { table := [[{ key := 0, value := 3 }]], capacity := 1, numOps := 4, size := -1 },
    by decide, by decide, by decide⟩

/-! ## The bucket index -/

theorem tmod_nonpos_of_neg {a : Int} (b : Int) (ha : a < 0) : Int.tmod a b ≤ 0 := by
  have h := Int.tmod_nonneg b (a := -a) (by omega)
  have h2 : Int.tmod (-a) b = -Int.tmod a b := by
    rw [Int.tmod_def, Int.tmod_def, Int.neg_tdiv]
    ring
  omega

theorem index_in_range {capacity k : Int} (hc : 0 < capacity) :
    (0 ≤ Int.tmod k capacity ∧ Int.tmod k capacity < capacity)
      ↔ (0 ≤ k ∨ capacity ∣ k) := by
  constructor
  · rintro ⟨h0, -⟩
    by_cases hk : 0 ≤ k
    · exact Or.inl hk
    · right
      have := tmod_nonpos_of_neg capacity (not_le.mp hk)
      exact Int.dvd_of_tmod_eq_zero (le_antisymm this h0)
  · rintro (hk | hd)
    · exact ⟨Int.tmod_nonneg _ hk, Int.tmod_lt_of_pos _ hc⟩
    · rw [Int.tmod_eq_zero_of_dvd hd]
      exact ⟨le_refl _, hc⟩

theorem readBucket_isSome {map : ts_hashmap_t} (hw : WellFormed map) (index : Int) :
    (readBucket map.table index).isSome ↔ (0 ≤ index ∧ index < map.capacity) := by
  obtain ⟨hc, hl⟩ := hw
  unfold readBucket
  by_cases h : index < 0
  · simp only [if_pos h, Option.isSome_none, Bool.false_eq_true, false_iff]
    omega
  · rw [if_neg h]
    by_cases h2 : index.toNat < map.table.length
    · rw [List.getElem?_eq_getElem h2]
      simp only [Option.isSome_some, true_iff]
      omega
    · rw [List.getElem?_eq_none (not_lt.mp h2)]
      simp only [Option.isSome_none, Bool.false_eq_true, false_iff]
      omega

theorem get_isSome {map : ts_hashmap_t} (hw : WellFormed map) (k : Int) :
    (get map k).isSome = (readBucket map.table (Int.tmod k map.capacity)).isSome := by
  cases hread : readBucket map.table (Int.tmod k map.capacity) <;>
    simp [get, ne_of_gt hw.1, hread]

theorem put_isSome {map : ts_hashmap_t} (hw : WellFormed map) (k v : Int) :
    (put map k v).isSome = (readBucket map.table (Int.tmod k map.capacity)).isSome := by
  cases hread : readBucket map.table (Int.tmod k map.capacity) <;>
    simp [put, ne_of_gt hw.1, hread]

theorem del_isSome {map : ts_hashmap_t} (hw : WellFormed map) (k : Int) :
    (del map k).isSome = (readBucket map.table (Int.tmod k map.capacity)).isSome := by
  cases hread : readBucket map.table (Int.tmod k map.capacity) <;>
    simp [del, ne_of_gt hw.1, hread]

/-- C16 (as stated, refuted): on `initmap(4)` the key -1 gives the bucket
index -1, which is not in `0 .. 3`, and `get`, `put` and `del` with that key
read outside the table. -/
theorem negative_key_index_out_of_range :
    WellFormed (initmap 4) ∧ Int.tmod (-1) (initmap 4).capacity = -1
      ∧ readBucket (initmap 4).table (Int.tmod (-1) (initmap 4).capacity) = none
      ∧ get (initmap 4) (-1) = none ∧ put (initmap 4) (-1) 7 = none
      ∧ del (initmap 4) (-1) = none := by
  decide

/-- C16 (amended): on a map with capacity > 0 the bucket index
`k % capacity` lies in `0 .. capacity-1` exactly when `k >= 0` or `k` is a
multiple of `capacity`; exactly for those keys the access `table[index]` is
inside the table and `get`, `put` and `del` have a result. -/
theorem index_in_range_iff (map : ts_hashmap_t) (k v : Int) (hw : WellFormed map) :
    ((0 ≤ Int.tmod k map.capacity ∧ Int.tmod k map.capacity < map.capacity)
        ↔ (0 ≤ k ∨ map.capacity ∣ k))
      ∧ ((readBucket map.table (Int.tmod k map.capacity)).isSome
        ↔ (0 ≤ k ∨ map.capacity ∣ k))
      ∧ ((get map k).isSome ↔ (0 ≤ k ∨ map.capacity ∣ k))
      ∧ ((put map k v).isSome ↔ (0 ≤ k ∨ map.capacity ∣ k))
      ∧ ((del map k).isSome ↔ (0 ≤ k ∨ map.capacity ∣ k)) := by
  have h1 := index_in_range (k := k) hw.1
  have h2 : (readBucket map.table (Int.tmod k map.capacity)).isSome
      ↔ (0 ≤ k ∨ map.capacity ∣ k) := (readBucket_isSome hw _).trans h1
  refine ⟨h1, h2, ?_, ?_, ?_⟩
  · rw [get_isSome hw]; exact h2
  · rw [put_isSome hw]; exact h2
  · rw [del_isSome hw]; exact h2

theorem index_in_range_iff_witness :
    ((0 ≤ Int.tmod (-8) (initmap 4).capacity
          ∧ Int.tmod (-8) (initmap 4).capacity < (initmap 4).capacity)
        ↔ ((0 : Int) ≤ -8 ∨ (initmap 4).capacity ∣ -8))
      ∧ ((readBucket (initmap 4).table (Int.tmod (-8) (initmap 4).capacity)).isSome
        ↔ ((0 : Int) ≤ -8 ∨ (initmap 4).capacity ∣ -8))
      ∧ ((get (initmap 4) (-8)).isSome ↔ ((0 : Int) ≤ -8 ∨ (initmap 4).capacity ∣ -8))
      ∧ ((put (initmap 4) (-8) 1).isSome ↔ ((0 : Int) ≤ -8 ∨ (initmap 4).capacity ∣ -8))
      ∧ ((del (initmap 4) (-8)).isSome ↔ ((0 : Int) ≤ -8 ∨ (initmap 4).capacity ∣ -8)) :=
  index_in_range_iff (initmap 4) (-8) 1 (by decide)

/-! ## The chain after `put` and `del` -/

theorem chain_split {chain : List ts_entry_t} {key : Int} (h : key ∈ chainKeys chain) :
    ∃ pre e post, chain = pre ++ e :: post ∧ e.key = key ∧ key ∉ chainKeys pre := by
  induction chain with
  | nil => simp [chainKeys] at h
  | cons entry next ih =>
    by_cases hk : entry.key = key
    · exact ⟨[], entry, next, rfl, hk, by simp [chainKeys]⟩
    · simp only [chainKeys, List.map_cons, List.mem_cons] at h
      rcases h with h | h
      · exact absurd h.symm hk
      · obtain ⟨pre, e, post, hsplit, he, hpre⟩ := ih h
        refine ⟨entry :: pre, e, post, by rw [hsplit]; rfl, he, ?_⟩
        simp only [chainKeys, List.map_cons, List.mem_cons, not_or]
        exact ⟨fun x => hk x.symm, hpre⟩

theorem get_loop_split {pre post : List ts_entry_t} {e : ts_entry_t} {key : Int}
    (he : e.key = key) (hpre : key ∉ chainKeys pre) :
    get_loop (pre ++ e :: post) key = e.value := by
  induction pre with
  | nil => simp [get_loop, he]
  | cons entry next ih =>
    simp only [chainKeys, List.map_cons, List.mem_cons, not_or] at hpre
    have hne : ¬ entry.key = key := fun x => hpre.1 x.symm
    simp only [List.cons_append, get_loop, if_neg hne]
    exact ih hpre.2

theorem put_loop_split {pre post : List ts_entry_t} {e : ts_entry_t} {key : Int}
    (value : Int) (he : e.key = key) (hpre : key ∉ chainKeys pre) :
    (put_loop (pre ++ e :: post) key value).2
      = pre ++ { key := key, value := value } :: post := by
  induction pre with
  | nil => simp [put_loop, he]
  | cons entry next ih =>
    simp only [chainKeys, List.map_cons, List.mem_cons, not_or] at hpre
    have hne : ¬ entry.key = key := fun x => hpre.1 x.symm
    simp only [List.cons_append, put_loop, if_neg hne]
    exact congrArg (List.cons entry) (ih hpre.2)

theorem del_loop_split {pre post : List ts_entry_t} {e : ts_entry_t} {key : Int}
    (he : e.key = key) (hpre : key ∉ chainKeys pre) :
    (del_loop (pre ++ e :: post) key).2 = pre ++ post := by
  induction pre with
  | nil => simp [del_loop, he]
  | cons entry next ih =>
    simp only [chainKeys, List.map_cons, List.mem_cons, not_or] at hpre
    have hne : ¬ entry.key = key := fun x => hpre.1 x.symm
    simp only [List.cons_append, del_loop, if_neg hne]
    exact congrArg (List.cons entry) (ih hpre.2)

/-- C17: on a map with capacity > 0, for `k >= 0` and any `v`: when `k` has
no entry in its bucket, `put(map, k, v)` returns `INT_MAX` and the chain of
the bucket becomes the new entry `(k, v)` followed by the old chain; when the
first entry with key `k` is `e` and `e.value != INT_MAX`, the chain
`pre ++ e :: post` becomes `pre ++ (k, v) :: post`, same length, keys and
order, with only that entry's value replaced (and `put` returns `e.value`). -/
theorem put_chain_shape (map : ts_hashmap_t) (k v : Int) (hw : WellFormed map)
    (hk : 0 ≤ k) :
    (¬ hasEntry map k →
        ∃ map1, put map k v = some (INT_MAX, map1)
          ∧ bucketOf map1 k = { key := k, value := v } :: bucketOf map k) ∧
      (∀ pre e post, bucketOf map k = pre ++ e :: post → e.key = k →
        k ∉ chainKeys pre → e.value ≠ INT_MAX →
        ∃ map1, put map k v = some (e.value, map1)
          ∧ bucketOf map1 k = pre ++ { key := k, value := v } :: post) := by
  obtain ⟨map1, hput, -, -, hb, -⟩ := put_spec v hw hk
  constructor
  · intro habs
    have hget : get_loop (bucketOf map k) k = INT_MAX := get_loop_absent habs
    refine ⟨map1, by rw [hput, hget], ?_⟩
    rw [hb]
    unfold put_chain
    rw [if_pos (by rw [put_loop_fst]; exact hget), put_loop_snd_absent v habs]
  · intro pre e post hsplit he hpre hval
    have hget : get_loop (bucketOf map k) k = e.value := by
      rw [hsplit]; exact get_loop_split he hpre
    refine ⟨map1, by rw [hput, hget], ?_⟩
    rw [hb]
    unfold put_chain
    rw [if_neg (by rw [put_loop_fst, hget]; exact hval), hsplit, put_loop_split v he hpre]

theorem put_chain_shape_witness :
    (∃ map1, put oneEntryMap 4 9 = some (INT_MAX, map1)
        ∧ bucketOf map1 4 = { key := 4, value := 9 } :: bucketOf oneEntryMap 4) ∧
      (∃ map1, put oneEntryMap 2 9 = some (5, map1)
        ∧ bucketOf map1 2 = [] ++ { key := 2, value := 9 } :: []) :=
  ⟨(put_chain_shape oneEntryMap 4 9 (by decide) (by decide)).1 (by decide),
    (put_chain_shape oneEntryMap 2 9 (by decide) (by decide)).2 [] { key := 2, value := 5 } []
      (by decide) (by decide) (by decide) (by decide)⟩

/-- C18: on a map with capacity > 0, for `k >= 0` that has an entry in its
bucket, the chain is `pre ++ e :: post` with `e` the first entry with key
`k`; `del(map, k)` returns `e.value` and leaves the chain `pre ++ post`, all
other entries kept in order, wherever `e` stood (`pre` or `post` may be
empty). -/
theorem del_unlinks_first (map : ts_hashmap_t) (k : Int) (hw : WellFormed map)
    (hk : 0 ≤ k) (hin : hasEntry map k) :
    ∃ pre e post, bucketOf map k = pre ++ e :: post ∧ e.key = k ∧ k ∉ chainKeys pre
      ∧ ∃ map1, del map k = some (e.value, map1) ∧ bucketOf map1 k = pre ++ post := by
  obtain ⟨pre, e, post, hsplit, he, hpre⟩ := chain_split hin
  obtain ⟨map1, hdel, -, -, hb, -⟩ := del_spec hw hk
  refine ⟨pre, e, post, hsplit, he, hpre, map1, ?_, ?_⟩
  · rw [hdel, hsplit, get_loop_split he hpre]
  · rw [hb, hsplit, del_loop_split he hpre]

theorem del_unlinks_first_witness :
    ∃ pre e post, bucketOf oneEntryMap 2 = pre ++ e :: post ∧ e.key = 2
      ∧ (2 : Int) ∉ chainKeys pre
      ∧ ∃ map1, del oneEntryMap 2 = some (e.value, map1) ∧ bucketOf map1 2 = pre ++ post :=
  del_unlinks_first oneEntryMap 2 (by decide) (by decide) (by decide)

/-! ## Bucket placement -/

theorem placed_set {map map1 : ts_hashmap_t} {key : Int} {chain1 : List ts_entry_t}
    (hw : WellFormed map) (hk : 0 ≤ key) (hP : Placed map)
    (ht : map1.table = map.table.set (Int.tmod key map.capacity).toNat chain1)
    (hcap : map1.capacity = map.capacity)
    (hkeys : ∀ x ∈ chainKeys chain1, x = key ∨ x ∈ chainKeys (bucketOf map key)) :
    Placed map1 := by
  obtain ⟨h0, h1⟩ := index_bounds hw.1 hk
  have hb : map.table[(Int.tmod key map.capacity).toNat]? = some (bucketOf map key) := by
    have h := readBucket_eq hw hk
    unfold readBucket at h
    rw [if_neg (not_lt.mpr h0)] at h
    exact h
  intro i chain hget e he
  rw [hcap]
  rw [ht] at hget
  by_cases hi : (Int.tmod key map.capacity).toNat = i
  · subst hi
    rw [← hw.2] at h1
    rw [List.getElem?_set_self h1] at hget
    simp only [Option.some.injEq] at hget
    subst hget
    have hx : e.key ∈ chainKeys chain1 := List.mem_map_of_mem _ he
    rcases hkeys _ hx with h2 | h2
    · rw [h2]; omega
    · obtain ⟨e0, he0, hk0⟩ := List.mem_map.mp h2
      rw [← hk0]
      exact hP _ _ hb e0 he0
  · rw [List.getElem?_set_ne hi] at hget
    exact hP i chain hget e he

theorem step_placed {map : ts_hashmap_t} {c : Call} (hw : WellFormed map)
    (hP : Placed map) (hk : c.keyOk) :
    ∃ r map1, step map c = some (r, map1) ∧ WellFormed map1 ∧ Placed map1 := by
  cases c with
  | get key =>
    obtain ⟨map1, h, hw1, ht, hcap, -⟩ := get_spec hw hk
    refine ⟨_, map1, h, hw1, ?_⟩
    intro i chain hget
    rw [ht] at hget
    rw [hcap]
    exact hP i chain hget
  | put key value =>
    obtain ⟨map1, h, hw1, ht, -, hcap, -⟩ := put_spec value hw hk
    exact ⟨_, map1, h, hw1, placed_set hw hk hP ht hcap put_chain_keys⟩
  | del key =>
    obtain ⟨map1, h, hw1, ht, -, hcap, -⟩ := del_spec hw hk
    refine ⟨_, map1, h, hw1, placed_set hw hk hP ht hcap ?_⟩
    intro x hx
    right
    exact (List.Sublist.map _ (del_loop_sublist (bucketOf map key) key)).subset hx

theorem run_placed {calls : List Call} :
    ∀ {map : ts_hashmap_t}, WellFormed map → Placed map → (∀ c ∈ calls, c.keyOk) →
      ∃ rs map1, run map calls = some (rs, map1) ∧ WellFormed map1 ∧ Placed map1 := by
  induction calls with
  | nil => intro map hw hP _; exact ⟨[], map, rfl, hw, hP⟩
  | cons c cs ih =>
    intro map hw hP hks
    obtain ⟨r, map1, hstep, hw1, hP1⟩ := step_placed hw hP (hks c (List.mem_cons_self _ _))
    obtain ⟨rs, map2, hrun, hw2, hP2⟩ :=
      ih hw1 hP1 (fun x hx => hks x (List.mem_cons_of_mem _ hx))
    exact ⟨r :: rs, map2, run_cons_eq hstep hrun, hw2, hP2⟩

theorem initmap_placed (capacity : Int) : Placed (initmap capacity) := by
  intro i chain hget e he
  have hmem : chain ∈ (initmap capacity).table := List.getElem?_mem hget
  have : chain = [] := List.eq_of_mem_replicate hmem
  subst this
  exact absurd he (List.not_mem_nil e)

/-- C20: in every state reached from `initmap(capacity)`, `capacity > 0`, by
get/put/del calls with keys `>= 0`, every entry in the chain of bucket `i`
has a key `k` with `k % capacity = i`; hence every entry with key `k`
anywhere in the table lies in the chain of bucket `k % capacity`, the one a
lookup of `k` walks. -/
theorem reachable_placed (capacity : Int) (calls : List Call) (hc : 0 < capacity)
    (hkeys : ∀ c ∈ calls, c.keyOk) :
    ∃ rs map, run (initmap capacity) calls = some (rs, map) ∧ Placed map
      ∧ ∀ chain ∈ map.table, ∀ e ∈ chain, e ∈ bucketOf map e.key := by
  obtain ⟨rs, map, hrun, hw, hP⟩ :=
    run_placed (initmap_wellFormed hc) (initmap_placed capacity) hkeys
  refine ⟨rs, map, hrun, hP, ?_⟩
  intro chain hmem e he
  obtain ⟨i, hi, hget⟩ := List.getElem_of_mem hmem
  have hget2 : map.table[i]? = some chain := by
    rw [List.getElem?_eq_getElem hi, hget]
  have hidx := hP i chain hget2 e he
  unfold bucketOf
  rw [hidx, Int.toNat_ofNat, hget2]
  exact he

theorem reachable_placed_witness :
    ∃ rs map, run (initmap 2) [Call.put 1 4, Call.put 4 5, Call.put 3 6, Call.del 1]
        = some (rs, map) ∧ Placed map
      ∧ ∀ chain ∈ map.table, ∀ e ∈ chain, e ∈ bucketOf map e.key :=
  reachable_placed 2 [Call.put 1 4, Call.put 4 5, Call.put 3 6, Call.del 1] (by decide)
    (by decide)

/-! ## Other keys are not affected -/

theorem get_loop_put_loop_ne (chain : List ts_entry_t) {k k' : Int} (v : Int)
    (hne : k ≠ k') : get_loop (put_loop chain k v).2 k' = get_loop chain k' := by
  induction chain with
  | nil => rfl
  | cons entry next ih =>
    by_cases h : entry.key = k
    · have h' : ¬ entry.key = k' := fun x => hne (h.symm.trans x)
      simp only [put_loop, if_pos h, get_loop, if_neg h']
    · simp only [put_loop, if_neg h, get_loop, ih]

theorem get_loop_put_chain_ne (chain : List ts_entry_t) {k k' : Int} (v : Int)
    (hne : k ≠ k') : get_loop (put_chain chain k v) k' = get_loop chain k' := by
  unfold put_chain
  by_cases h : (put_loop chain k v).1 = INT_MAX
  · rw [if_pos h]
    simp only [get_loop, if_neg hne]
    exact get_loop_put_loop_ne chain v hne
  · rw [if_neg h]
    exact get_loop_put_loop_ne chain v hne

theorem get_loop_del_loop_ne (chain : List ts_entry_t) {k k' : Int} (hne : k ≠ k') :
    get_loop (del_loop chain k).2 k' = get_loop chain k' := by
  induction chain with
  | nil => rfl
  | cons entry next ih =>
    by_cases h : entry.key = k
    · have h' : ¬ entry.key = k' := fun x => hne (h.symm.trans x)
      simp only [del_loop, if_pos h, get_loop, if_neg h']
    · simp only [del_loop, if_neg h, get_loop, ih]

theorem get_loop_frame {map map1 : ts_hashmap_t} {k : Int} (k' : Int)
    {chain1 : List ts_entry_t} (hw : WellFormed map) (hk : 0 ≤ k)
    (ht : map1.table = map.table.set (Int.tmod k map.capacity).toNat chain1)
    (hcap : map1.capacity = map.capacity)
    (hch : get_loop chain1 k' = get_loop (bucketOf map k) k') :
    get_loop (bucketOf map1 k') k' = get_loop (bucketOf map k') k' := by
  have h1 := (index_bounds hw.1 hk).2
  rw [← hw.2] at h1
  by_cases hi : (Int.tmod k map.capacity).toNat = (Int.tmod k' map.capacity).toNat
  · have hb1 : bucketOf map1 k' = chain1 := by
      unfold bucketOf
      rw [ht, hcap, ← hi, List.getElem?_set_self h1]
      rfl
    have hb : bucketOf map k' = bucketOf map k := by
      unfold bucketOf
      rw [hi]
    rw [hb1, hb, hch]
  · have hb1 : bucketOf map1 k' = bucketOf map k' := by
      unfold bucketOf
      rw [ht, hcap, List.getElem?_set_ne hi]
    rw [hb1]

theorem put_frame {map : ts_hashmap_t} {k k' : Int} (v : Int) (hw : WellFormed map)
    (hk : 0 ≤ k) (hne : k ≠ k') :
    ∃ r map1, put map k v = some (r, map1) ∧ WellFormed map1
      ∧ (∀ i : Nat, i ≠ (Int.tmod k map.capacity).toNat → map1.table[i]? = map.table[i]?)
      ∧ get_loop (bucketOf map1 k') k' = get_loop (bucketOf map k') k' := by
  obtain ⟨map1, hput, hw1, ht, -, hcap, -⟩ := put_spec v hw hk
  refine ⟨_, map1, hput, hw1, ?_, ?_⟩
  · intro i hi
    rw [ht, List.getElem?_set_ne (Ne.symm hi)]
  · exact get_loop_frame k' hw hk ht hcap (get_loop_put_chain_ne _ v hne)

theorem del_frame {map : ts_hashmap_t} {k k' : Int} (hw : WellFormed map)
    (hk : 0 ≤ k) (hne : k ≠ k') :
    ∃ r map1, del map k = some (r, map1) ∧ WellFormed map1
      ∧ (∀ i : Nat, i ≠ (Int.tmod k map.capacity).toNat → map1.table[i]? = map.table[i]?)
      ∧ get_loop (bucketOf map1 k') k' = get_loop (bucketOf map k') k' := by
  obtain ⟨map1, hdel, hw1, ht, -, hcap, -⟩ := del_spec hw hk
  refine ⟨_, map1, hdel, hw1, ?_, ?_⟩
  · intro i hi
    rw [ht, List.getElem?_set_ne (Ne.symm hi)]
  · exact get_loop_frame k' hw hk ht hcap (get_loop_del_loop_ne _ hne)

theorem run_puts_frame {pairs : List (Int × Int)} {k' : Int} :
    ∀ {map : ts_hashmap_t}, WellFormed map → (∀ p ∈ pairs, 0 ≤ p.1 ∧ p.1 ≠ k') →
      ∃ rs map1, run map (putCalls pairs) = some (rs, map1) ∧ WellFormed map1
        ∧ get_loop (bucketOf map1 k') k' = get_loop (bucketOf map k') k' := by
  induction pairs with
  | nil => intro map hw _; exact ⟨[], map, rfl, hw, rfl⟩
  | cons p ps ih =>
    intro map hw hps
    have hp := hps p (List.mem_cons_self _ _)
    obtain ⟨r, map1, hput, hw1, -, hg1⟩ := put_frame p.2 hw hp.1 hp.2
    obtain ⟨rs, map2, hrun, hw2, hg2⟩ :=
      ih hw1 (fun x hx => hps x (List.mem_cons_of_mem _ hx))
    refine ⟨r :: rs, map2, ?_, hw2, by rw [hg2, hg1]⟩
    exact run_cons_eq (c := Call.put p.1 p.2) hput hrun

theorem run_puts_retrievable {pairs : List (Int × Int)} :
    ∀ {map : ts_hashmap_t}, WellFormed map → (pairs.map Prod.fst).Nodup →
      (∀ p ∈ pairs, 0 ≤ p.1) →
      ∃ rs map1, run map (putCalls pairs) = some (rs, map1) ∧ WellFormed map1
        ∧ ∀ p ∈ pairs, get_loop (bucketOf map1 p.1) p.1 = p.2 := by
  induction pairs with
  | nil =>
    intro map hw _ _
    exact ⟨[], map, rfl, hw, fun p hp => absurd hp (List.not_mem_nil p)⟩
  | cons p ps ih =>
    intro map hw hnd hks
    simp only [List.map_cons, List.nodup_cons] at hnd
    have hp0 := hks p (List.mem_cons_self _ _)
    obtain ⟨map1, hput, hw1, -, hb1, -⟩ := put_spec p.2 hw hp0
    have hks' : ∀ x ∈ ps, 0 ≤ x.1 := fun x hx => hks x (List.mem_cons_of_mem _ hx)
    obtain ⟨rs, map2, hrun, hw2, hall⟩ := ih hw1 hnd.2 hks'
    have hfr : ∀ x ∈ ps, 0 ≤ x.1 ∧ x.1 ≠ p.1 := by
      intro x hx
      refine ⟨hks' x hx, ?_⟩
      intro heq
      exact hnd.1 (by rw [← heq]; exact List.mem_map_of_mem _ hx)
    obtain ⟨rs', map2', hrun', -, hg⟩ := @run_puts_frame ps p.1 map1 hw1 hfr
    rw [hrun] at hrun'
    simp only [Option.some.injEq, Prod.mk.injEq] at hrun'
    rw [← hrun'.2] at hg
    refine ⟨_ :: rs, map2, run_cons_eq (c := Call.put p.1 p.2) hput hrun, hw2, ?_⟩
    intro x hx
    rcases List.mem_cons.mp hx with h | h
    · rw [h, hg, hb1, get_loop_put_chain]
    · exact hall x h

/-- C11: on a map with capacity > 0, for distinct keys `k`, `k'`, both
`>= 0`, and any `v`: `put(k, v)` and `del(k)` each return, leave the chain of
every bucket other than `k % capacity` as it was, and leave the value that
`get(k')` returns unchanged.  Hence after `put` calls for pairwise distinct
keys `>= 0` made one after another, `get` of each key returns the value put
with it. -/
theorem other_keys_kept (map : ts_hashmap_t) (k k' v : Int) (hw : WellFormed map)
    (hk : 0 ≤ k) (hk' : 0 ≤ k') (hne : k ≠ k') :
    (∃ r map1, put map k v = some (r, map1)
        ∧ (∀ i : Nat, i ≠ (Int.tmod k map.capacity).toNat →
            map1.table[i]? = map.table[i]?)
        ∧ ∃ r' map2 map3, get map k' = some (r', map2) ∧ get map1 k' = some (r', map3)) ∧
      (∃ r map1, del map k = some (r, map1)
        ∧ (∀ i : Nat, i ≠ (Int.tmod k map.capacity).toNat →
            map1.table[i]? = map.table[i]?)
        ∧ ∃ r' map2 map3, get map k' = some (r', map2) ∧ get map1 k' = some (r', map3)) ∧
      (∀ pairs : List (Int × Int), (pairs.map Prod.fst).Nodup → (∀ p ∈ pairs, 0 ≤ p.1) →
        ∃ rs map1, run map (putCalls pairs) = some (rs, map1)
          ∧ ∀ p ∈ pairs, ∃ map2, get map1 p.1 = some (p.2, map2)) := by
  obtain ⟨map0, hget0, -⟩ := get_spec hw hk'
  refine ⟨?_, ?_, ?_⟩
  · obtain ⟨r, map1, hput, hw1, hother, hg⟩ := put_frame v hw hk hne
    obtain ⟨map3, hget1, -⟩ := get_spec hw1 hk'
    exact ⟨r, map1, hput, hother, _, map0, map3, hget0, by rw [hget1, hg]⟩
  · obtain ⟨r, map1, hdel, hw1, hother, hg⟩ := del_frame hw hk hne
    obtain ⟨map3, hget1, -⟩ := get_spec hw1 hk'
    exact ⟨r, map1, hdel, hother, _, map0, map3, hget0, by rw [hget1, hg]⟩
  · intro pairs hnd hks
    obtain ⟨rs, map1, hrun, hw1, hall⟩ := run_puts_retrievable hw hnd hks
    refine ⟨rs, map1, hrun, ?_⟩
    intro p hp
    obtain ⟨map2, hget, -⟩ := get_spec hw1 (hks p hp)
    exact ⟨map2, by rw [hget, hall p hp]⟩

theorem other_keys_kept_witness :
    (∃ r map1, put oneEntryMap 4 7 = some (r, map1)
        ∧ (∀ i : Nat, i ≠ (Int.tmod 4 oneEntryMap.capacity).toNat →
            map1.table[i]? = oneEntryMap.table[i]?)
        ∧ ∃ r' map2 map3, get oneEntryMap 2 = some (r', map2)
          ∧ get map1 2 = some (r', map3)) ∧
      (∃ r map1, del oneEntryMap 4 = some (r, map1)
        ∧ (∀ i : Nat, i ≠ (Int.tmod 4 oneEntryMap.capacity).toNat →
            map1.table[i]? = oneEntryMap.table[i]?)
        ∧ ∃ r' map2 map3, get oneEntryMap 2 = some (r', map2)
          ∧ get map1 2 = some (r', map3)) ∧
      (∃ rs map1, run oneEntryMap (putCalls [(2, 8), (4, 9), (1, 3)]) = some (rs, map1)
          ∧ ∀ p ∈ [((2 : Int), (8 : Int)), (4, 9), (1, 3)],
            ∃ map2, get map1 p.1 = some (p.2, map2)) := by
  have h := other_keys_kept oneEntryMap 4 2 7 (by decide) (by decide) (by decide)
    (by decide)
  exact ⟨h.1, h.2.1, h.2.2 [(2, 8), (4, 9), (1, 3)] (by decide) (by decide)⟩

/-! ## Lock discipline -/

theorem call_locks_shape {map : ts_hashmap_t} {c : Call} (hw : WellFormed map)
    (hk : c.keyOk) :
    call_locks map c = some [LockEvent.lock (Lock.tableLock (Int.tmod c.key map.capacity)),
        LockEvent.unlock (Lock.tableLock (Int.tmod c.key map.capacity)),
        LockEvent.lock Lock.numOpsLock, LockEvent.unlock Lock.numOpsLock]
    ∨ call_locks map c = some [LockEvent.lock (Lock.tableLock (Int.tmod c.key map.capacity)),
        LockEvent.unlock (Lock.tableLock (Int.tmod c.key map.capacity)),
        LockEvent.lock Lock.sizeLock, LockEvent.unlock Lock.sizeLock,
        LockEvent.lock Lock.numOpsLock, LockEvent.unlock Lock.numOpsLock] := by
  have hcap : ¬ map.capacity = 0 := ne_of_gt hw.1
  cases c with
  | get key =>
    have hk0 : 0 ≤ key := hk
    left
    simp only [call_locks, get_locks, if_neg hcap, readBucket_eq hw hk0, Call.key]
  | put key value =>
    have hk0 : 0 ≤ key := hk
    simp only [call_locks, put_locks, if_neg hcap, readBucket_eq hw hk0, Call.key]
    by_cases h : (put_loop (bucketOf map key) key value).1 = INT_MAX
    · left; simp [h]
    · right; simp [h]
  | del key =>
    have hk0 : 0 ≤ key := hk
    simp only [call_locks, del_locks, if_neg hcap, readBucket_eq hw hk0, Call.key]
    by_cases h : (del_loop (bucketOf map key) key).1 = INT_MAX
    · left; simp [h]
    · right; simp [h]

theorem paired_append {a b : List LockEvent} (ha : Paired a) (hb : Paired b) :
    Paired (a ++ b) := by
  induction ha with
  | nil => exact hb
  | pair l _ ih => exact Paired.pair l ih

theorem paired_join {ops : List (List LockEvent)} (h : ∀ o ∈ ops, Paired o) :
    Paired ops.flatten := by
  induction ops with
  | nil => exact Paired.nil
  | cons o os ih =>
    rw [List.flatten_cons]
    exact paired_append (h o (List.mem_cons_self _ _))
      (ih (fun x hx => h x (List.mem_cons_of_mem _ hx)))

theorem opTrace_paired {t : List LockEvent} (h : OpTrace t) : Paired t := by
  obtain ⟨map, c, hw, hk, hc⟩ := h
  rcases call_locks_shape hw hk with h1 | h1
  · rw [hc] at h1
    simp only [Option.some.injEq] at h1
    rw [h1]
    exact Paired.pair _ (Paired.pair _ Paired.nil)
  · rw [hc] at h1
    simp only [Option.some.injEq] at h1
    rw [h1]
    exact Paired.pair _ (Paired.pair _ (Paired.pair _ Paired.nil))

/-- What the threads of a lock state keep true while they run. -/
theorem stepThread_inv {s s1 : LockState} {i : Nat} (hstep : s.stepThread i = some s1)
    (h1 : s.held.Nodup)
    (h2 : ∀ l ∈ s.held, ∃ (j : Nat) (rest : List LockEvent), s.threads[j]? = some (LockEvent.unlock l :: rest))
    (h3 : ∀ t ∈ s.threads, Paired t ∨ ∃ l rest, t = LockEvent.unlock l :: rest ∧ Paired rest) :
    s1.held.Nodup
      ∧ (∀ l ∈ s1.held, ∃ (j : Nat) (rest : List LockEvent), s1.threads[j]? = some (LockEvent.unlock l :: rest))
      ∧ (∀ t ∈ s1.threads,
          Paired t ∨ ∃ l rest, t = LockEvent.unlock l :: rest ∧ Paired rest) := by
  unfold LockState.stepThread at hstep
  cases hti : s.threads[i]? with
  | none => simp [hti] at hstep
  | some ti =>
    have hmem : ti ∈ s.threads := List.getElem?_mem hti
    have hlen : i < s.threads.length := by
      by_contra hcon
      rw [List.getElem?_eq_none (not_lt.mp hcon)] at hti
      exact absurd hti (by simp)
    cases ti with
    | nil => simp [hti] at hstep
    | cons ev rest =>
      cases ev with
      | lock l =>
        simp only [hti] at hstep
        by_cases hl : l ∈ s.held
        · simp [hl] at hstep
        · simp only [if_neg hl, Option.some.injEq] at hstep
          subst hstep
          have hrest : ∃ rest1, rest = LockEvent.unlock l :: rest1 ∧ Paired rest1 := by
            rcases h3 _ hmem with hp | ⟨l0, r0, he, -⟩
            · cases hp with
              | pair _ hp1 => exact ⟨_, rfl, hp1⟩
            · exact absurd he (by simp)
          obtain ⟨rest1, hr, hp1⟩ := hrest
          refine ⟨List.nodup_cons.mpr ⟨hl, h1⟩, ?_, ?_⟩
          · intro l1 hl1
            rcases List.mem_cons.mp hl1 with h | h
            · exact ⟨i, rest1, by simp only [List.getElem?_set_self hlen, hr, h]⟩
            · obtain ⟨j, r, hj⟩ := h2 l1 h
              have hij : i ≠ j := by
                intro heq
                rw [heq, hj] at hti
                simp at hti
              exact ⟨j, r, by simp only [List.getElem?_set_ne hij, hj]⟩
          · intro t ht
            rcases List.mem_or_eq_of_mem_set ht with h | h
            · exact h3 t h
            · right; exact ⟨l, rest1, by rw [h, hr], hp1⟩
      | unlock l =>
        simp only [hti, Option.some.injEq] at hstep
        subst hstep
        have hp : Paired rest := by
          rcases h3 _ hmem with hp | ⟨l0, r0, he, hp0⟩
          · cases hp
          · simp only [List.cons.injEq] at he
            rw [he.2]; exact hp0
        refine ⟨h1.erase l, ?_, ?_⟩
        · intro l1 hl1
          have hl1' := (List.Nodup.mem_erase_iff h1).mp hl1
          obtain ⟨j, r, hj⟩ := h2 l1 hl1'.2
          have hij : i ≠ j := by
            intro heq
            rw [heq, hj] at hti
            simp only [Option.some.injEq, List.cons.injEq, LockEvent.unlock.injEq] at hti
            exact hl1'.1 hti.1
          exact ⟨j, r, by simp only [List.getElem?_set_ne hij, hj]⟩
        · intro t ht
          rcases List.mem_or_eq_of_mem_set ht with h | h
          · exact h3 t h
          · left; rw [h]; exact hp

theorem exec_inv {sched : List Nat} :
    ∀ {s s1 : LockState}, s.exec sched = some s1 → s.held.Nodup →
      (∀ l ∈ s.held, ∃ (j : Nat) (rest : List LockEvent), s.threads[j]? = some (LockEvent.unlock l :: rest)) →
      (∀ t ∈ s.threads,
        Paired t ∨ ∃ l rest, t = LockEvent.unlock l :: rest ∧ Paired rest) →
      (∀ l ∈ s1.held, ∃ (j : Nat) (rest : List LockEvent), s1.threads[j]? = some (LockEvent.unlock l :: rest))
        ∧ (∀ t ∈ s1.threads,
          Paired t ∨ ∃ l rest, t = LockEvent.unlock l :: rest ∧ Paired rest) := by
  induction sched with
  | nil =>
    intro s s1 h _ h2 h3
    simp only [LockState.exec, Option.some.injEq] at h
    subst h
    exact ⟨h2, h3⟩
  | cons i rest ih =>
    intro s s1 h h1 h2 h3
    simp only [LockState.exec] at h
    cases hs : s.stepThread i with
    | none => simp [hs] at h
    | some s2 =>
      simp only [hs] at h
      obtain ⟨g1, g2, g3⟩ := stepThread_inv hs h1 h2 h3
      exact ih h g1 g2 g3

theorem not_deadlocked_of_inv {s : LockState}
    (h2 : ∀ l ∈ s.held, ∃ (j : Nat) (rest : List LockEvent), s.threads[j]? = some (LockEvent.unlock l :: rest))
    (h3 : ∀ t ∈ s.threads, Paired t ∨ ∃ l rest, t = LockEvent.unlock l :: rest ∧ Paired rest) :
    ¬ s.deadlocked := by
  rintro ⟨⟨t, ht, hne⟩, hblocked⟩
  have hun : ∀ (j : Nat) (l : Lock) (rest : List LockEvent),
      s.threads[j]? = some (LockEvent.unlock l :: rest) → False := by
    intro j l rest hj
    have := hblocked j
    simp [LockState.stepThread, hj] at this
  cases hheld : s.held with
  | cons l ls =>
    obtain ⟨j, rest, hj⟩ := h2 l (by rw [hheld]; exact List.mem_cons_self _ _)
    exact hun j l rest hj
  | nil =>
    obtain ⟨i, hi, hget⟩ := List.getElem_of_mem ht
    have hti : s.threads[i]? = some t := by rw [List.getElem?_eq_getElem hi, hget]
    rcases h3 t ht with hp | ⟨l, rest, he, -⟩
    · cases hp with
      | nil => exact hne rfl
      | pair l hp1 =>
        have := hblocked i
        simp [LockState.stepThread, hti, hheld] at this
    · exact hun i l rest (by rw [hti, he])

/-- C15 (as stated, refuted): `del(2)` on `oneEntryMap` finds the key and
takes two counter locks, `sizeLock` and then `numOpsLock`, not at most one. -/
theorem del_hit_takes_two_counter_locks :
    call_locks oneEntryMap (Call.del 2)
        = some [LockEvent.lock (Lock.tableLock 0), LockEvent.unlock (Lock.tableLock 0),
            LockEvent.lock Lock.sizeLock, LockEvent.unlock Lock.sizeLock,
            LockEvent.lock Lock.numOpsLock, LockEvent.unlock Lock.numOpsLock]
      ∧ ¬ counterAcquires [LockEvent.lock (Lock.tableLock 0),
            LockEvent.unlock (Lock.tableLock 0),
            LockEvent.lock Lock.sizeLock, LockEvent.unlock Lock.sizeLock,
            LockEvent.lock Lock.numOpsLock, LockEvent.unlock Lock.numOpsLock] ≤ 1 := by
  decide

theorem wrapInt_succ_ne (x : Int) : wrapInt (x + 1) ≠ x := by
  unfold wrapInt
  omega

theorem wrapInt_pred_ne (x : Int) : wrapInt (x - 1) ≠ x := by
  unfold wrapInt
  omega

theorem get_locks_eq {map : ts_hashmap_t} {key : Int} (hw : WellFormed map)
    (hk : 0 ≤ key) :
    get_locks map key
      = some (bucketSection (Int.tmod key map.capacity) ++ numOpsSection) := by
  simp only [get_locks, if_neg (ne_of_gt hw.1), readBucket_eq hw hk]
  rfl

theorem put_locks_eq {map : ts_hashmap_t} {key : Int} (value : Int)
    (hw : WellFormed map) (hk : 0 ≤ key) :
    put_locks map key value
      = some (bucketSection (Int.tmod key map.capacity)
          ++ (if get_loop (bucketOf map key) key ≠ INT_MAX then sizeSection else [])
          ++ numOpsSection) := by
  simp only [put_locks, if_neg (ne_of_gt hw.1), readBucket_eq hw hk, put_loop_fst]
  rfl

theorem del_locks_eq {map : ts_hashmap_t} {key : Int} (hw : WellFormed map)
    (hk : 0 ≤ key) :
    del_locks map key
      = some (bucketSection (Int.tmod key map.capacity)
          ++ (if get_loop (bucketOf map key) key ≠ INT_MAX then sizeSection else [])
          ++ numOpsSection) := by
  simp only [del_locks, if_neg (ne_of_gt hw.1), readBucket_eq hw hk, del_loop_fst]
  rfl

theorem short_trace_facts (index : Int) :
    bucketAcquires (bucketSection index ++ numOpsSection) = 1
      ∧ counterAcquires (bucketSection index ++ numOpsSection) ≤ 2
      ∧ Paired (bucketSection index ++ numOpsSection) :=
  ⟨rfl, by simp [bucketSection, numOpsSection, counterAcquires],
    Paired.pair _ (Paired.pair _ Paired.nil)⟩

theorem long_trace_facts (index : Int) :
    bucketAcquires (bucketSection index ++ sizeSection ++ numOpsSection) = 1
      ∧ counterAcquires (bucketSection index ++ sizeSection ++ numOpsSection) ≤ 2
      ∧ Paired (bucketSection index ++ sizeSection ++ numOpsSection) :=
  ⟨rfl, by simp [bucketSection, sizeSection, numOpsSection, counterAcquires],
    Paired.pair _ (Paired.pair _ (Paired.pair _ Paired.nil))⟩

/-- The mutex calls of a call that leaves `size` as it was, and of one that
changes it. -/
theorem locks_of_size_change {map map1 : ts_hashmap_t} {index g : Int} {size1 : Int}
    (hs : map1.size = if g ≠ INT_MAX then size1 else map.size) (hne : size1 ≠ map.size) :
    (map1.size ≠ map.size →
        bucketSection index ++ (if g ≠ INT_MAX then sizeSection else []) ++ numOpsSection
          = bucketSection index ++ sizeSection ++ numOpsSection) ∧
      (map1.size = map.size →
        bucketSection index ++ (if g ≠ INT_MAX then sizeSection else []) ++ numOpsSection
          = bucketSection index ++ numOpsSection) := by
  by_cases hg : g = INT_MAX
  · have hs' : map1.size = map.size := by rw [hs]; simp [hg]
    exact ⟨fun h => absurd hs' h, fun _ => by simp [hg]⟩
  · have hs' : map1.size = size1 := by rw [hs]; simp [hg]
    exact ⟨fun _ => by simp [hg], fun h => absurd (hs'.symm.trans h) hne⟩

/-- C15 (amended): every call of get, put or del with a key `>= 0` on a map
with capacity > 0 returns, and its mutex calls are, in this order: the
section on the lock of bucket `key % capacity`; then, for a put or del that
changes `size`, the section on `sizeLock`; then the section on `numOpsLock`.
A get, and a put or del that leaves `size` as it was, take `numOpsLock`
only.  So a call takes exactly one bucket lock, first, and at most two
counter locks, each lock is released before the next is taken, and none is
held at the return.  Hence threads that run such calls, started with all
mutexes free, never reach a state where some thread is unfinished and none
can make its next mutex call. -/
theorem lock_discipline (map : ts_hashmap_t) (c : Call) (hw : WellFormed map)
    (hk : c.keyOk) :
    (∃ r map1 t, step map c = some (r, map1) ∧ call_locks map c = some t
        ∧ ((∃ k, c = Call.get k) →
            t = bucketSection (Int.tmod c.key map.capacity) ++ numOpsSection)
        ∧ (map1.size ≠ map.size →
            t = bucketSection (Int.tmod c.key map.capacity) ++ sizeSection ++ numOpsSection)
        ∧ (map1.size = map.size →
            t = bucketSection (Int.tmod c.key map.capacity) ++ numOpsSection)
        ∧ bucketAcquires t = 1 ∧ counterAcquires t ≤ 2 ∧ Paired t) ∧
      (∀ threads : List (List LockEvent),
        (∀ t ∈ threads, ∃ ops : List (List LockEvent),
          (∀ o ∈ ops, OpTrace o) ∧ t = ops.flatten) →
        ∀ sched s, LockState.exec { threads := threads, held := [] } sched = some s →
          ¬ s.deadlocked) := by
  constructor
  · cases c with
    | get key =>
      have hk0 : 0 ≤ key := hk
      obtain ⟨map1, hget, -, -, -, hs, -⟩ := get_spec hw hk0
      obtain ⟨f1, f2, f3⟩ := short_trace_facts (Int.tmod key map.capacity)
      exact ⟨_, map1, _, hget, get_locks_eq hw hk0, fun _ => rfl,
        fun h => absurd hs h, fun _ => rfl, f1, f2, f3⟩
    | put key value =>
      have hk0 : 0 ≤ key := hk
      obtain ⟨map1, hput, -, -, -, -, hs, -⟩ := put_spec value hw hk0
      obtain ⟨g1, g2⟩ := @locks_of_size_change map map1 (Int.tmod key map.capacity) _ _ hs
        (wrapInt_succ_ne map.size)
      refine ⟨_, map1, _, hput, put_locks_eq value hw hk0, ?_, g1, g2, ?_⟩
      · rintro ⟨k, hc⟩
        exact absurd hc (by simp)
      · by_cases hg : get_loop (bucketOf map key) key = INT_MAX
        · simp only [hg, ne_eq, not_true_eq_false, if_false, List.append_nil]
          exact short_trace_facts _
        · simp only [hg, ne_eq, not_false_eq_true, if_true]
          exact long_trace_facts _
    | del key =>
      have hk0 : 0 ≤ key := hk
      obtain ⟨map1, hdel, -, -, -, -, hs, -⟩ := del_spec hw hk0
      obtain ⟨g1, g2⟩ := @locks_of_size_change map map1 (Int.tmod key map.capacity) _ _ hs
        (wrapInt_pred_ne map.size)
      refine ⟨_, map1, _, hdel, del_locks_eq hw hk0, ?_, g1, g2, ?_⟩
      · rintro ⟨k, hc⟩
        exact absurd hc (by simp)
      · by_cases hg : get_loop (bucketOf map key) key = INT_MAX
        · simp only [hg, ne_eq, not_true_eq_false, if_false, List.append_nil]
          exact short_trace_facts _
        · simp only [hg, ne_eq, not_false_eq_true, if_true]
          exact long_trace_facts _
  · intro threads hthreads sched s hexec
    have h3 : ∀ t ∈ threads,
        Paired t ∨ ∃ l rest, t = LockEvent.unlock l :: rest ∧ Paired rest := by
      intro t ht
      obtain ⟨ops, hops, heq⟩ := hthreads t ht
      left
      rw [heq]
      exact paired_join (fun o ho => opTrace_paired (hops o ho))
    obtain ⟨g2, g3⟩ := exec_inv hexec List.nodup_nil
      (fun l hl => absurd hl (List.not_mem_nil l)) h3
    exact not_deadlocked_of_inv g2 g3

theorem lock_discipline_witness :
    (∃ r map1 t, step oneEntryMap (Call.del 2) = some (r, map1)
        ∧ call_locks oneEntryMap (Call.del 2) = some t
        ∧ map1.size ≠ oneEntryMap.size
        ∧ t = bucketSection 0 ++ sizeSection ++ numOpsSection
        ∧ bucketAcquires t = 1 ∧ counterAcquires t ≤ 2 ∧ Paired t) ∧
      LockState.exec { threads := twoThreads, held := [] } [0, 1] = none ∧
      LockState.exec { threads := twoThreads, held := [] } [0, 0, 1, 0, 1, 1, 0, 1, 0, 0]
        = some { threads := [[], []], held := [] } ∧
      (∀ sched s, LockState.exec { threads := twoThreads, held := [] } sched = some s →
          ¬ s.deadlocked) := by
  have h := lock_discipline oneEntryMap (Call.del 2) (by decide) (by decide)
  obtain ⟨r, map1, t, hstep, ht, -, hchg, -, hb, hc, hp⟩ := h.1
  have hsize : map1.size ≠ oneEntryMap.size := by
    have hev : step oneEntryMap (Call.del 2) = some (5,
        { table := [[], []], capacity := 2, numOps := 2, size := 0 }) := by decide
    rw [hev] at hstep
    simp only [Option.some.injEq, Prod.mk.injEq] at hstep
    rw [← hstep.2]
    decide
  refine ⟨⟨r, map1, t, hstep, ht, hsize, hchg hsize, hb, hc, hp⟩, by decide, by decide,
    h.2 twoThreads ?_⟩
  intro th hth
  simp only [twoThreads, List.mem_cons, List.mem_singleton, List.not_mem_nil, or_false] at hth
  rcases hth with h1 | h1
  · refine ⟨[th], ?_, by simp⟩
    intro o ho
    rw [List.mem_singleton.mp ho, h1]
    exact ⟨oneEntryMap, Call.del 2, by decide, by decide, by decide⟩
  · refine ⟨[th], ?_, by simp⟩
    intro o ho
    rw [List.mem_singleton.mp ho, h1]
    exact ⟨oneEntryMap, Call.get 4, by decide, by decide, by decide⟩

end TsHashmap
